import Mathlib

/-!
Verification of the `code-battle` decision engine.

This file gives a shallow embedding, in Lean 4, of the Python sources
`strategies/battlesnake_ultimate.py`, `utils/spatial_utils.py` and
`utils/game_theory_utils.py`, and proves/refutes the specification claims
about them.  Python dictionaries are modelled as structures or association
lists, Python sets as lists used only through membership, Python `float`
scores as exact rationals extended with infinities, and the two unbounded
loops of `a_star` (the priority-queue loop and the path reconstruction
loop) are given explicit fuel; every other loop is structural.
-/

namespace CodeBattle

/-- A grid cell, Python tuple `(x, y)` of (possibly negative) integers. -/
structure Coord where
  x : Int
  y : Int
deriving DecidableEq

/-- One agent, mirroring the snake dictionaries of the turn snapshot:
`id`, `head`, ordered `body` (head first), `health`, and the stored
`length` field (which the simulator recomputes as `len(body)`). -/
structure Snek where
  id : String
  head : Coord
  body : List Coord
  health : Int
  length : Nat
deriving DecidableEq

/-- The `board` sub-dictionary of the turn snapshot. -/
structure BBoard where
  width : Int
  height : Int
  food : List Coord
  snakes : List Snek
deriving DecidableEq

/-- The full turn snapshot: `board` plus the controlled snake `you`. -/
structure GameState where
  board : BBoard
  you : Snek
deriving DecidableEq

/-! ## Strategy layer (`strategies/battlesnake_ultimate.py`) -/

/-- `Strategy.on_game_move` (battlesnake_ultimate.py lines 14-24): the
function body prints and then returns the static info dictionary; the
expectimax search and the `{"move": ...}` return are commented out.
The returned dictionary is modelled as an association list. -/
def on_game_move (_game_state : GameState) : List (String × String) :=
  [("apiversion", "1"), ("author", "UltimateBot"), ("color", "#FFFFFF"),
   ("head", "all-seeing"), ("tail", "ghost")]

/-- The four candidate moves with their coordinate deltas, in the
insertion order of `possible_moves` in `_get_safe_moves`. -/
def possible_moves : List (String × (Int × Int)) :=
  [("up", (0, -1)), ("down", (0, 1)), ("left", (-1, 0)), ("right", (1, 0))]

/-- Bounds test `0 <= x < width and 0 <= y < height`. -/
def inBounds (width height : Int) (c : Coord) : Bool :=
  decide (0 ≤ c.x) && decide (c.x < width) && decide (0 ≤ c.y) && decide (c.y < height)

/-- First loop of `_get_safe_moves`: the target is deadly when it lies in
`s['body'][:-1]` (all segments except the tail-tip) of any snake. -/
def bodyDeadly (gs : GameState) (target : Coord) : Bool :=
  gs.board.snakes.any (fun s => (s.body.dropLast).contains target)

/-- Second loop of `_get_safe_moves`: the target is deadly when it equals
a distinct snake's head and the mover is not strictly longer. -/
def headDeadly (snake : Snek) (gs : GameState) (target : Coord) : Bool :=
  gs.board.snakes.any (fun opp =>
    decide (opp.id ≠ snake.id) && decide (target = opp.head) &&
    decide (snake.length ≤ opp.length))

/-- `Strategy._get_safe_moves` (lines 75-91): filters the four candidate
directions by bounds, body collision and head-to-head collision, returning
the surviving `(name, target)` pairs in insertion order. -/
def get_safe_moves (snake : Snek) (gs : GameState) : List (String × Coord) :=
  possible_moves.filterMap (fun md =>
    let t : Coord := ⟨snake.head.x + md.2.1, snake.head.y + md.2.2⟩
    if inBounds gs.board.width gs.board.height t &&
       !bodyDeadly gs t && !headDeadly snake gs t
    then some (md.1, t) else none)

/-- `Strategy._simulate_move` (lines 64-73), acting on one snake and the
food list of the state it lives in.  If the new head is on a food cell the
first such food entry is removed and health is reset to 100; otherwise the
tail is popped and health decremented.  The new head is inserted at index
0 unconditionally and `length` is recomputed as the body size. -/
def simStep (snake : Snek) (food : List Coord) (next_head : Coord) : Snek × List Coord :=
  let eats := food.contains next_head
  let food' := if eats then food.erase next_head else food
  let body0 := next_head :: snake.body
  let body' := if eats then body0 else body0.dropLast
  let health' := if eats then 100 else snake.health - 1
  (⟨snake.id, next_head, body', health', body'.length⟩, food')

/-- `_simulate_move` at the state level: the snake is updated together
with the state's food list (the Python function mutates both through the
state; here the updated pair is returned). -/
def simulate_move (snake : Snek) (state : GameState) (next_head : Coord) :
    Snek × GameState :=
  let (snake', food') := simStep snake state.board.food next_head
  (snake', { state with board := { state.board with food := food' } })

/-- Replace the first snake with the given id by the result of `f`
(`_find_snake_in_state` followed by in-place mutation). -/
def updateFirstSnake (sid : String) (f : Snek → Snek) : List Snek → List Snek
  | [] => []
  | s :: rest => if s.id = sid then f s :: rest else s :: updateFirstSnake sid f rest

/-- `Strategy._is_snake_alive` (lines 109-112). -/
def is_snake_alive (sid : String) (gs : GameState) : Bool :=
  match gs.board.snakes.find? (fun s => s.id = sid) with
  | some s => decide (0 < s.health)
  | none => false

/-- `Strategy._get_opponent` (lines 99-102): the first snake whose id
differs from `you`. -/
def get_opponent (gs : GameState) : Option Snek :=
  gs.board.snakes.find? (fun s => s.id ≠ gs.you.id)

/-- `Strategy._get_children` (lines 52-62): pick the mover, bail out with
no children if it is absent or dead, and otherwise apply every safe move
to a copy of the state (copies are value updates in this pure model). -/
def get_children (gs : GameState) (is_maximizing_player : Bool) :
    List (String × GameState) :=
  let mover? := if is_maximizing_player then some gs.you else get_opponent gs
  match mover? with
  | none => []
  | some mover =>
    if !is_snake_alive mover.id gs then []
    else
      (get_safe_moves mover gs).map (fun mc =>
        let newSnakes := updateFirstSnake mover.id
          (fun s => (simStep s gs.board.food mc.2).1) gs.board.snakes
        let newFood := (simStep mover gs.board.food mc.2).2
        (mc.1, { gs with board := { gs.board with snakes := newSnakes, food := newFood } }))

/-! ## Game theory layer (`utils/game_theory_utils.py`)

Scores are Python floats.  `minimax` only ever compares scores and takes
`max`/`min`, so its float scores are modelled by the computable linear
order `Score` of rationals extended with `⊥ = -float('inf')` and
`⊤ = float('inf')` (the repository's evaluator only produces finite
values and these two infinities, never NaN).  `expectimax` additionally
adds and divides scores, so its scores are modelled by `FVal`, rationals
extended with both infinities and NaN under IEEE rules. -/

/-- Python float scores for `minimax`: rationals with two infinities. -/
abbrev Score : Type := WithBot (WithTop ℚ)

/-- The maximizing loop of `minimax` (game_theory_utils.py lines 44-54):
track the best score and move, raise `alpha`, and break out of the
remaining children as soon as `beta <= alpha`. -/
def abMaxLoop {σ : Type} (recur : σ → Score → Score → Score) (β : Score) :
    Score → Score → Option String → List (String × σ) → Score × Option String
  | _, best, bm, [] => (best, bm)
  | α, best, bm, (m, c) :: rest =>
    let e := recur c α β
    let p := if best < e then (e, some m) else (best, bm)
    let α' := max α e
    if β ≤ α' then p else abMaxLoop recur β α' p.1 p.2 rest

/-- The minimizing loop of `minimax` (lines 56-66), lowering `beta` with
the same `beta <= alpha` break. -/
def abMinLoop {σ : Type} (recur : σ → Score → Score → Score) (α : Score) :
    Score → Score → Option String → List (String × σ) → Score × Option String
  | _, best, bm, [] => (best, bm)
  | β, best, bm, (m, c) :: rest =>
    let e := recur c α β
    let p := if e < best then (e, some m) else (best, bm)
    let β' := min β e
    if β' ≤ α then p else abMinLoop recur α β' p.1 p.2 rest

/-- `minimax` (lines 14-66) with alpha-beta pruning.  The Python defaults
`alpha = -float('inf')`, `beta = float('inf')` are `⊥` and `⊤`. -/
def minimax {σ : Type} (children : σ → Bool → List (String × σ))
    (evaluate : σ → Score) :
    Nat → σ → Bool → Score → Score → Score × Option String
  | 0, s, _, _, _ => (evaluate s, none)
  | d + 1, s, isMax, α, β =>
    match children s isMax with
    | [] => (evaluate s, none)
    | c :: rest =>
      if isMax then
        abMaxLoop (fun t a b => (minimax children evaluate d t false a b).1)
          β α ⊥ none (c :: rest)
      else
        abMinLoop (fun t a b => (minimax children evaluate d t true a b).1)
          α β ⊤ none (c :: rest)

/-- The maximizing loop with the `beta <= alpha` break removed: `alpha`
still rises and is passed down, but no sibling is ever skipped. -/
def npMaxLoop {σ : Type} (recur : σ → Score → Score → Score) (β : Score) :
    Score → Score → Option String → List (String × σ) → Score × Option String
  | _, best, bm, [] => (best, bm)
  | α, best, bm, (m, c) :: rest =>
    let e := recur c α β
    let p := if best < e then (e, some m) else (best, bm)
    npMaxLoop recur β (max α e) p.1 p.2 rest

/-- The minimizing loop with the break removed. -/
def npMinLoop {σ : Type} (recur : σ → Score → Score → Score) (α : Score) :
    Score → Score → Option String → List (String × σ) → Score × Option String
  | _, best, bm, [] => (best, bm)
  | β, best, bm, (m, c) :: rest =>
    let e := recur c α β
    let p := if e < best then (e, some m) else (best, bm)
    npMinLoop recur α (min β e) p.1 p.2 rest

/-- `minimax` with the two `break` statements removed and nothing else
changed: the comparison recursion the claim about pruning refers to. -/
def minimaxNP {σ : Type} (children : σ → Bool → List (String × σ))
    (evaluate : σ → Score) :
    Nat → σ → Bool → Score → Score → Score × Option String
  | 0, s, _, _, _ => (evaluate s, none)
  | d + 1, s, isMax, α, β =>
    match children s isMax with
    | [] => (evaluate s, none)
    | c :: rest =>
      if isMax then
        npMaxLoop (fun t a b => (minimaxNP children evaluate d t false a b).1)
          β α ⊥ none (c :: rest)
      else
        npMinLoop (fun t a b => (minimaxNP children evaluate d t true a b).1)
          α β ⊤ none (c :: rest)

/-- Python float values as `expectimax` sees them: rationals, the two
infinities, and NaN. -/
inductive FVal where
  | nan : FVal
  | ninf : FVal
  | pinf : FVal
  | fin (q : ℚ) : FVal
deriving DecidableEq

/-- IEEE addition on `FVal`: NaN propagates, opposite infinities give NaN. -/
def FVal.add : FVal → FVal → FVal
  | nan, _ => nan
  | _, nan => nan
  | ninf, pinf => nan
  | pinf, ninf => nan
  | ninf, _ => ninf
  | _, ninf => ninf
  | pinf, _ => pinf
  | _, pinf => pinf
  | fin a, fin b => fin (a + b)

/-- Division of a float by a Python int.  Division by zero raises
`ZeroDivisionError` in Python; the total model returns NaN there and the
instrumented `expectimaxE` treats that case as the runtime error. -/
def FVal.divNat : FVal → Nat → FVal
  | _, 0 => nan
  | nan, _ => nan
  | ninf, _ => ninf
  | pinf, _ => pinf
  | fin q, n => fin (q / (n : ℚ))

/-- Python `<` on floats: false whenever either side is NaN. -/
def FVal.flt : FVal → FVal → Bool
  | nan, _ => false
  | _, nan => false
  | ninf, ninf => false
  | ninf, _ => true
  | _, ninf => false
  | pinf, _ => false
  | fin _, pinf => true
  | fin a, fin b => decide (a < b)

/-- The maximizing loop of `expectimax` (lines 89-97): keep the best
score/move under `evaluation > max_eval`, starting from `-float('inf')`. -/
def emaxLoop {σ : Type} (recur : σ → FVal) :
    FVal → Option String → List (String × σ) → FVal × Option String
  | best, bm, [] => (best, bm)
  | best, bm, (m, c) :: rest =>
    let e := recur c
    if best.flt e then emaxLoop recur e (some m) rest
    else emaxLoop recur best bm rest

/-- `expectimax` (lines 68-106): terminal at depth 0 or no children,
maximizing ply as in minimax without pruning, and on the chance ply the
sum of the children's scores (from `avg_score = 0`) divided by the number
of children, with no move. -/
def expectimax {σ : Type} (children : σ → Bool → List (String × σ))
    (evaluate : σ → FVal) :
    Nat → σ → Bool → FVal × Option String
  | 0, s, _ => (evaluate s, none)
  | d + 1, s, isMax =>
    match children s isMax with
    | [] => (evaluate s, none)
    | c :: rest =>
      if isMax then
        emaxLoop (fun t => (expectimax children evaluate d t false).1)
          FVal.ninf none (c :: rest)
      else
        let scores := (c :: rest).map
          (fun t => (expectimax children evaluate d t.2 true).1)
        ((scores.foldl FVal.add (FVal.fin 0)).divNat (c :: rest).length, none)

/-- The maximizing loop with child failures propagated. -/
def emaxLoopE {σ : Type} (recur : σ → Option (FVal × Option String)) :
    FVal → Option String → List (String × σ) → Option (FVal × Option String)
  | best, bm, [] => some (best, bm)
  | best, bm, (m, c) :: rest =>
    match recur c with
    | none => none
    | some e =>
      if best.flt e.1 then emaxLoopE recur e.1 (some m) rest
      else emaxLoopE recur best bm rest

/-- The chance-node summation loop with child failures propagated: the
scores of all rival branches, or `none` when a recursive call failed. -/
def collectScores {σ : Type} (recurE : σ → Option (FVal × Option String)) :
    List (String × σ) → Option (List FVal)
  | [] => some []
  | t :: rest =>
    match recurE t.2 with
    | none => none
    | some v =>
      match collectScores recurE rest with
      | none => none
      | some vs => some (v.1 :: vs)

/-- `expectimax` instrumented for the one runtime error its body can
raise: the division `avg_score / len(children)` on the chance ply is a
`ZeroDivisionError` when the children list is empty, modelled as `none`;
failures of recursive calls propagate. -/
def expectimaxE {σ : Type} (children : σ → Bool → List (String × σ))
    (evaluate : σ → FVal) :
    Nat → σ → Bool → Option (FVal × Option String)
  | 0, s, _ => some (evaluate s, none)
  | d + 1, s, isMax =>
    match children s isMax with
    | [] => some (evaluate s, none)
    | c :: rest =>
      if isMax then
        emaxLoopE (fun t => expectimaxE children evaluate d t false)
          FVal.ninf none (c :: rest)
      else
        match collectScores (fun t => expectimaxE children evaluate d t true)
          (c :: rest) with
        | none => none
        | some scores =>
          if (c :: rest).length = 0 then none
          else some ((scores.foldl FVal.add (FVal.fin 0)).divNat (c :: rest).length, none)

/-! ## Spatial layer (`utils/spatial_utils.py`)

`a_star` is a loop over a `heapq` priority queue.  The queue is modelled
as a list of `(priority, coordinate)` entries from which each round
removes the entry that is minimal in the lexicographic tuple order Python
`heapq` uses; `came_from` and `cost_so_far` are association lists whose
update is a shadowing cons (lookups see the newest binding, exactly like
a dict assignment).  The two source loops that are not structurally
bounded — the main `while pq` loop and the path-reconstruction `while` —
receive explicit fuel; the fuel chosen for `a_star` is proved sufficient
where a claim needs termination, and `none` marks exhaustion. -/

/-- Association-list lookup, the model of Python dict indexing: the most
recent binding of a key wins (updates are shadowing conses). -/
def alookup {β : Type} (a : Coord) : List (Coord × β) → Option β
  | [] => none
  | (k, v) :: rest => if a = k then some v else alookup a rest

/-- `manhattan_distance` (spatial_utils.py lines 31-32). -/
def manhattan (a b : Coord) : Nat :=
  (a.x - b.x).natAbs + (a.y - b.y).natAbs

/-- Strict comparison of heap entries: Python compares the tuples
`(priority, (x, y))` lexicographically. -/
def entryLt (a b : Nat × Coord) : Bool :=
  decide (a.1 < b.1) ||
    (decide (a.1 = b.1) &&
      (decide (a.2.x < b.2.x) || (decide (a.2.x = b.2.x) && decide (a.2.y < b.2.y))))

/-- The minimal entry of a nonempty queue (`heappop` returns the entry
with the least tuple value; ties are value-identical entries). -/
def minEntry : (Nat × Coord) → List (Nat × Coord) → Nat × Coord
  | e, [] => e
  | e, f :: rest => minEntry (if entryLt f e then f else e) rest

/-- Search state of the `a_star` loop. -/
structure AState where
  pq : List (Nat × Coord)
  came : List (Coord × Option Coord)
  cost : List (Coord × Nat)

/-- Neighbor offsets in the order the source iterates them. -/
def astarDeltas : List (Int × Int) := [(0, 1), (0, -1), (1, 0), (-1, 0)]

/-- Process one neighbor of `current` (lines 49-61): skip it when out of
bounds, or when it is an obstacle other than the goal; otherwise relax it
when it is new or its cost improves, pushing a queue entry with priority
`new_cost + manhattan(end, neighbor)` and recording parent and cost. -/
def expandNeighbor (endC : Coord) (obstacles : List Coord) (w h : Int)
    (current : Coord) (st : AState) (d : Int × Int) : AState :=
  let nb : Coord := ⟨current.x + d.1, current.y + d.2⟩
  if !(inBounds w h nb) then st
  else if obstacles.contains nb && !(decide (nb = endC)) then st
  else
    -- `cost_so_far[current]`: `current` was popped from the queue, and every
    -- queued coordinate has a recorded cost, so the default is never taken.
    let newCost := (alookup current st.cost).getD 0 + 1
    let improves := match alookup nb st.cost with
      | none => true
      | some oldc => decide (newCost < oldc)
    if improves then
      { pq := (newCost + manhattan endC nb, nb) :: st.pq,
        came := (nb, some current) :: st.came,
        cost := (nb, newCost) :: st.cost }
    else st

/-- Path reconstruction (lines 42-46): walk the `came_from` parents from
the goal and produce the start-to-goal order.  Every coordinate the walk
reaches is a `came_from` key and recorded costs strictly decrease along
parents, so `cost.length + 1` fuel always suffices (proved where used)
and the lookup default is never taken. -/
def reconstruct (came : List (Coord × Option Coord)) :
    Nat → Option Coord → List Coord → List Coord
  | 0, _, acc => acc
  | _ + 1, none, acc => acc
  | fuel + 1, some c, acc => reconstruct came fuel ((alookup c came).getD none) (c :: acc)

/-- The `while pq` loop of `a_star` (lines 38-61): pop the minimal entry,
return the reconstructed path if it is the goal, otherwise expand its four
neighbors.  `some none` is the source's `return None` (queue exhausted);
the outer `none` is fuel exhaustion. -/
def astarLoop (endC : Coord) (obstacles : List Coord) (w h : Int) :
    Nat → AState → Option (Option (List Coord))
  | 0, _ => none
  | fuel + 1, st =>
    match st.pq with
    | [] => some none
    | e :: rest =>
      let m := minEntry e rest
      let current := m.2
      if current = endC then
        some (some (reconstruct st.came (st.cost.length + 1) (some current) []))
      else
        let st' := astarDeltas.foldl
          (expandNeighbor endC obstacles w h current)
          { st with pq := (e :: rest).erase m }
        astarLoop endC obstacles w h fuel st'

/-- `a_star` (lines 16-62).  The initial state is the queue `[(0, start)]`
with `came_from = {start: None}` and `cost_so_far = {start: 0}`.  The
fuel bounds the number of loop iterations; `3·(w·h) + 10` iterations are
never reached because each cell is relaxed at most three times. -/
def a_star (start endC : Coord) (obstacles : List Coord) (w h : Int) :
    Option (Option (List Coord)) :=
  astarLoop endC obstacles w h (3 * (w.toNat * h.toNat + 2) + 4)
    { pq := [(0, start)], came := [(start, none)], cost := [(start, 0)] }

/-- Folding `max` over values: the running best of the maximizing loops. -/
def foldMax {α' : Type} (g : α' → Score) (b : Score) (l : List α') : Score :=
  l.foldl (fun acc c => max acc (g c)) b

/-- Folding `min` over values: the running best of the minimizing loops. -/
def foldMin {α' : Type} (g : α' → Score) (b : Score) (l : List α') : Score :=
  l.foldl (fun acc c => min acc (g c)) b

/-- Loop invariant of `a_star`, generic in a property `P` of discovered
cells: every `came_from` key satisfies `P`, every parent recorded in
`came_from` is itself a key, and every queued coordinate is a key. -/
def AInv (P : Coord → Prop) (st : AState) : Prop :=
  (∀ pr ∈ st.came, P pr.1) ∧
  (∀ pr ∈ st.came, ∀ c : Coord, pr.2 = some c → (alookup c st.came).isSome) ∧
  (∀ e ∈ st.pq, (alookup e.2 st.came).isSome)

/-- A candidate path for `a_star`'s notion of traversal: it starts at
`start` (the start cell itself is never checked by the code), ends at
`target`, moves one grid step at a time, and every cell after the first
is in bounds and is not an obstacle unless it is the goal `endC`. -/
def ValidPath (start target endC : Coord) (obstacles : List Coord)
    (w h : Int) (p : List Coord) : Prop :=
  p.head? = some start ∧ p.getLast? = some target ∧
  List.Chain' (fun a b => manhattan a b = 1) p ∧
  ∀ c ∈ p.tail, inBounds w h c = true ∧ (c ∉ obstacles ∨ c = endC)

/-- The full loop invariant of `a_star` used for the shortest-path
claims.  `frontier` is the classical relaxation invariant: every
discovered cell either still has its exact-priority queue entry or has
offered cost `v+1` to each of its valid neighbors; `prioLB` says every
queue entry's priority dominates the entry cell's current cost plus the
admissible heuristic. -/
structure BInv (start endC : Coord) (obstacles : List Coord) (w h : Int)
    (st : AState) : Prop where
  keyValid : ∀ k v, alookup k st.cost = some v →
    k = start ∨ (inBounds w h k = true ∧ (k ∉ obstacles ∨ k = endC))
  startCost : alookup start st.cost = some 0
  startCame : alookup start st.came = some none
  domSync : ∀ k : Coord, (alookup k st.came).isSome ↔ (alookup k st.cost).isSome
  cameStart : ∀ k : Coord, alookup k st.came = some none → k = start
  cameParent : ∀ k c : Coord, alookup k st.came = some (some c) →
    manhattan c k = 1 ∧
    ∃ vc vk, alookup c st.cost = some vc ∧ alookup k st.cost = some vk ∧ vc < vk
  costBound : ∀ k v, alookup k st.cost = some v → v < st.cost.length
  frontier : ∀ k v, alookup k st.cost = some v →
    ((v + manhattan endC k, k) ∈ st.pq) ∨
    (∀ d ∈ astarDeltas,
      inBounds w h ⟨k.x + d.1, k.y + d.2⟩ = true →
      (obstacles.contains ⟨k.x + d.1, k.y + d.2⟩ = false ∨
        (⟨k.x + d.1, k.y + d.2⟩ : Coord) = endC) →
      ∃ v', alookup ⟨k.x + d.1, k.y + d.2⟩ st.cost = some v' ∧ v' ≤ v + 1)
  prioLB : ∀ e ∈ st.pq, ∃ v, alookup e.2 st.cost = some v ∧
    v + manhattan endC e.2 ≤ e.1

/-- `BInv` with the `frontier` obligation waived for one cell: the state
right after popping `current`'s queue entry, before its neighbors are
expanded. -/
structure BInvW (start endC : Coord) (obstacles : List Coord) (w h : Int)
    (current : Coord) (st : AState) : Prop where
  keyValid : ∀ k v, alookup k st.cost = some v →
    k = start ∨ (inBounds w h k = true ∧ (k ∉ obstacles ∨ k = endC))
  startCost : alookup start st.cost = some 0
  startCame : alookup start st.came = some none
  domSync : ∀ k : Coord, (alookup k st.came).isSome ↔ (alookup k st.cost).isSome
  cameStart : ∀ k : Coord, alookup k st.came = some none → k = start
  cameParent : ∀ k c : Coord, alookup k st.came = some (some c) →
    manhattan c k = 1 ∧
    ∃ vc vk, alookup c st.cost = some vc ∧ alookup k st.cost = some vk ∧ vc < vk
  costBound : ∀ k v, alookup k st.cost = some v → v < st.cost.length
  frontierW : ∀ k v, alookup k st.cost = some v → k = current ∨
    ((v + manhattan endC k, k) ∈ st.pq) ∨
    (∀ d ∈ astarDeltas,
      inBounds w h ⟨k.x + d.1, k.y + d.2⟩ = true →
      (obstacles.contains ⟨k.x + d.1, k.y + d.2⟩ = false ∨
        (⟨k.x + d.1, k.y + d.2⟩ : Coord) = endC) →
      ∃ v', alookup ⟨k.x + d.1, k.y + d.2⟩ st.cost = some v' ∧ v' ≤ v + 1)
  prioLB : ∀ e ∈ st.pq, ∃ v, alookup e.2 st.cost = some v ∧
    v + manhattan endC e.2 ≤ e.1

/-- The goal cell is never expanded (the loop returns when it is
popped), so as long as the loop is still running, a discovered goal keeps
a queue entry: the completeness half of the search. -/
def GInv (endC : Coord) (st : AState) : Prop :=
  ∀ v, alookup endC st.cost = some v →
    (v + manhattan endC endC, endC) ∈ st.pq

/-- Counting invariant used to bound the number of loop iterations:
every cost binding (shadowed ones included) is for an in-bounds cell and
lies within two of the Manhattan distance from the start, and the
bindings of each key, newest first, carry strictly increasing values
(each relaxation strictly lowers the key's cost, and bindings are never
removed). -/
def EInv (start : Coord) (w h : Int) (st : AState) : Prop :=
  (∀ pr ∈ st.cost, inBounds w h pr.1 = true ∧
    manhattan start pr.1 ≤ pr.2 ∧ pr.2 ≤ manhattan start pr.1 + 2) ∧
  (∀ k : Coord,
    List.Chain' (fun a b => a < b)
      ((st.cost.filter (fun pr => decide (pr.1 = k))).map Prod.snd))

/-- The in-bounds cells of a `w × h` board, as a finite set. -/
def boardCells (w h : Int) : Finset Coord :=
  (Finset.range w.toNat ×ˢ Finset.range h.toNat).image
    (fun pr => (⟨pr.1, pr.2⟩ : Coord))

/-! ## Concrete boards used by counterexamples and witnesses -/

/-- The children function of the spec's chance-node example: two rival
branches whose leaves evaluate to 3 and 5. -/
def c8Children : ℚ → Bool → List (String × ℚ) :=
  fun _ _ => [("min1", 3), ("min2", 5)]

/-- A one-segment snake about to eat the food at (1,1). -/
def c2Snake : Snek := ⟨"A", ⟨1, 0⟩, [⟨1, 0⟩], 50, 1⟩

/-- A 5×5 board holding `c2Snake` and one food at (1,1). -/
def c2State : GameState := ⟨⟨5, 5, [⟨1, 1⟩], [c2Snake]⟩, c2Snake⟩

/-- A one-segment mover at (0,0). -/
def c3Mover : Snek := ⟨"A", ⟨0, 0⟩, [⟨0, 0⟩], 90, 1⟩

/-- A two-segment rival whose tail-tip (1,0) sits next to the mover. -/
def c3Rival : Snek := ⟨"B", ⟨2, 0⟩, [⟨2, 0⟩, ⟨1, 0⟩], 90, 2⟩

/-- The 5×5 board holding `c3Mover` and `c3Rival`. -/
def c3State : GameState := ⟨⟨5, 5, [], [c3Mover, c3Rival]⟩, c3Mover⟩

/-! ## C1: the move handler's turn output -/

/-- C1: the spec requires `on_game_move` to return exactly one of the four
direction tokens, but the function body returns the static info dictionary
(the search and the `{"move": ...}` return are commented out): for every
turn snapshot the returned dictionary has no "move" key at all. -/
theorem on_game_move_has_no_move_key (gs : GameState) :
    (on_game_move gs).lookup "move" = none ∧
    (on_game_move gs).map Prod.fst =
      ["apiversion", "author", "color", "head", "tail"] := by
  constructor <;> rfl

/-! ## C2: simulating a move onto a resource cell -/

/-- C2 counterexample: eating is claimed to leave the body length
unchanged, but on this concrete board the one-segment snake that moves
onto the food at (1,1) ends the step with body length 2. -/
theorem simulate_move_food_grows_body :
    ¬ ((simulate_move c2Snake c2State ⟨1, 1⟩).1.body.length
        = c2Snake.body.length) := by decide

/-- C2 (amended): a move onto a resource cell sets the mover's vitality to
the maximum 100, removes the first matching resource from the resulting
state (the input state, a pure value, keeps it), prepends the new head
while keeping the tail segment, and so grows the body length by exactly
one (rather than leaving it unchanged). -/
theorem simulate_move_food (s : Snek) (st : GameState) (t : Coord)
    (h : t ∈ st.board.food) :
    (simulate_move s st t).1.health = 100 ∧
    (simulate_move s st t).1.body = t :: s.body ∧
    (simulate_move s st t).1.body.length = s.body.length + 1 ∧
    (simulate_move s st t).2.board.food = st.board.food.erase t := by
  have hc : st.board.food.contains t = true := by
    simpa [List.elem_iff] using h
  refine ⟨?_, ?_, ?_, ?_⟩ <;> simp [simulate_move, simStep, hc, h]

/-- C2 witness: the amended statement evaluated on the concrete board. -/
theorem simulate_move_food_witness :
    (simulate_move c2Snake c2State ⟨1, 1⟩).1.health = 100 ∧
    (simulate_move c2Snake c2State ⟨1, 1⟩).1.body = ⟨1, 1⟩ :: c2Snake.body ∧
    (simulate_move c2Snake c2State ⟨1, 1⟩).1.body.length = c2Snake.body.length + 1 ∧
    (simulate_move c2Snake c2State ⟨1, 1⟩).2.board.food
      = c2State.board.food.erase ⟨1, 1⟩ :=
  simulate_move_food c2Snake c2State ⟨1, 1⟩ (by decide)

/-! ## C3: the safe-move filter -/

/-- C3 counterexample: the claim excludes every body segment other than
the mover's own tail-tip, but the filter drops each snake's own last
segment: here "right" targets the rival's tail-tip (1,0) — a body segment
of an agent, not anywhere in the mover's body — and is returned safe. -/
theorem get_safe_moves_allows_rival_tail :
    ("right", (⟨1, 0⟩ : Coord)) ∈ get_safe_moves c3Mover c3State ∧
    (∃ s ∈ c3State.board.snakes, (⟨1, 0⟩ : Coord) ∈ s.body) ∧
    (⟨1, 0⟩ : Coord) ∉ c3Mover.body := by decide

/-- C3 (amended): a direction/target pair is returned exactly when the
direction is one of the four moves, the target is its offset from the
mover's head, the target is inside the board, the target avoids every
agent's body with that agent's own tail-tip dropped (not only the mover's
own), and the target avoids the head of every rival at least as long as
the mover. -/
theorem get_safe_moves_mem (snake : Snek) (gs : GameState)
    (name : String) (t : Coord) :
    (name, t) ∈ get_safe_moves snake gs ↔
      ∃ d, (name, d) ∈ possible_moves ∧
        t = ⟨snake.head.x + d.1, snake.head.y + d.2⟩ ∧
        inBounds gs.board.width gs.board.height t = true ∧
        (∀ s ∈ gs.board.snakes, t ∉ s.body.dropLast) ∧
        (∀ opp ∈ gs.board.snakes, opp.id ≠ snake.id → t = opp.head →
          opp.length < snake.length) := by
  simp only [get_safe_moves, List.mem_filterMap]
  constructor
  · rintro ⟨md, hmd, hf⟩
    by_cases hcond : (inBounds gs.board.width gs.board.height
        ⟨snake.head.x + md.2.1, snake.head.y + md.2.2⟩ &&
        !bodyDeadly gs ⟨snake.head.x + md.2.1, snake.head.y + md.2.2⟩ &&
        !headDeadly snake gs ⟨snake.head.x + md.2.1, snake.head.y + md.2.2⟩) = true
    · rw [if_pos hcond] at hf
      obtain ⟨hn, ht⟩ : md.1 = name ∧
          (⟨snake.head.x + md.2.1, snake.head.y + md.2.2⟩ : Coord) = t := by
        constructor <;> [exact congrArg Prod.fst (Option.some.inj hf);
          exact congrArg Prod.snd (Option.some.inj hf)]
      subst ht
      refine ⟨md.2, by rw [← hn]; simpa using hmd, rfl, ?_, ?_, ?_⟩ <;>
        simp only [Bool.and_eq_true, Bool.not_eq_true'] at hcond
      · exact hcond.1.1
      · intro s hs
        have := hcond.1.2
        simp only [bodyDeadly, List.any_eq_false] at this
        simpa [List.elem_iff] using this s hs
      · intro opp hopp hid hhead
        have := hcond.2
        simp only [headDeadly, List.any_eq_false] at this
        have h2 := this opp hopp
        by_contra hno
        have hle : snake.length ≤ opp.length := Nat.le_of_not_lt hno
        simp [hid, hhead, hle] at h2
    · rw [if_neg hcond] at hf
      exact absurd hf (by simp)
  · rintro ⟨d, hd, ht, hb, hbody, hhead⟩
    refine ⟨(name, d), hd, ?_⟩
    have hcond : (inBounds gs.board.width gs.board.height
        ⟨snake.head.x + d.1, snake.head.y + d.2⟩ &&
        !bodyDeadly gs ⟨snake.head.x + d.1, snake.head.y + d.2⟩ &&
        !headDeadly snake gs ⟨snake.head.x + d.1, snake.head.y + d.2⟩) = true := by
      rw [← ht]
      simp only [Bool.and_eq_true, Bool.not_eq_true']
      refine ⟨⟨hb, ?_⟩, ?_⟩
      · simp only [bodyDeadly, List.any_eq_false]
        intro s hs
        simpa [List.elem_iff] using hbody s hs
      · simp only [headDeadly, List.any_eq_false]
        intro opp hopp
        by_cases hid : opp.id = snake.id
        · simp [hid]
        · by_cases hh : t = opp.head
          · have hlt := hhead opp hopp hid hh
            have hnle : ¬ (snake.length ≤ opp.length) := by omega
            simp [hh, hnle]
          · simp [hh]
    rw [if_pos hcond, ← ht]

/-! ## C8 and C10: the expectimax chance node -/

/-- Folding IEEE addition over finite values from a finite accumulator
adds them exactly. -/
theorem foldl_add_fin (qs : List ℚ) (a : ℚ) :
    (qs.map FVal.fin).foldl FVal.add (FVal.fin a) = FVal.fin (a + qs.sum) := by
  induction qs generalizing a with
  | nil => simp
  | cons q rest ih => simp [FVal.add, ih, add_assoc]

/-- C8: on a chance ply (positive depth, not maximizing) with a nonempty
children list whose recursive scores are the finite values `qs`, the
returned score is exactly the uniform arithmetic mean of `qs` and the
returned move is `none`. -/
theorem expectimax_chance_mean {σ : Type} (children : σ → Bool → List (String × σ))
    (evaluate : σ → FVal) (d : Nat) (s : σ) (qs : List ℚ)
    (hne : children s false ≠ [])
    (hfin : (children s false).map
        (fun t => (expectimax children evaluate d t.2 true).1) = qs.map FVal.fin) :
    expectimax children evaluate (d + 1) s false
      = (FVal.fin (qs.sum / (qs.length : ℚ)), none) := by
  rcases hcs : children s false with _ | ⟨c, rest⟩
  · exact absurd hcs hne
  · have hlen : (c :: rest).length = qs.length := by
      have := congrArg List.length hfin
      simpa [hcs] using this
    rw [hcs] at hfin
    simp only [expectimax, hcs, if_neg (Bool.false_ne_true), Bool.false_eq_true,
      if_false]
    rw [hfin, foldl_add_fin, hlen]
    rcases qs with _ | ⟨q0, qrest⟩
    · simp at hlen
    · simp [FVal.divNat, zero_add]

/-- C8 witness: the spec's example — children scoring 3 and 5 give the
chance-node score 4 with no move. -/
theorem expectimax_chance_mean_witness :
    expectimax c8Children FVal.fin 1 (0 : ℚ) false = (FVal.fin 4, none) := by
  have h := expectimax_chance_mean c8Children FVal.fin 0 (0 : ℚ) [3, 5]
    (by decide) (by decide)
  refine h.trans ?_
  norm_num

/-- Collecting scores from recursive calls that all succeed yields the
map of their score components. -/
theorem collectScores_eq_map {σ : Type}
    (recurE : σ → Option (FVal × Option String)) (recur : σ → FVal × Option String)
    (h : ∀ t, recurE t = some (recur t)) :
    ∀ l : List (String × σ),
      collectScores recurE l = some (l.map (fun t => (recur t.2).1))
  | [] => rfl
  | t :: rest => by
    simp [collectScores, h t.2, collectScores_eq_map recurE recur h rest]

/-- The instrumented maximizing loop agrees with the plain one when every
recursive call succeeds. -/
theorem emaxLoopE_eq {σ : Type} (recurE : σ → Option (FVal × Option String))
    (recur : σ → FVal) (h : ∀ t, ∃ m, recurE t = some (recur t, m)) :
    ∀ (l : List (String × σ)) (best : FVal) (bm : Option String),
      emaxLoopE recurE best bm l = some (emaxLoop recur best bm l)
  | [], best, bm => rfl
  | (m, c) :: rest, best, bm => by
    obtain ⟨mv, hmv⟩ := h c
    by_cases hb : best.flt (recur c)
    · simp [emaxLoopE, emaxLoop, hmv, hb, emaxLoopE_eq recurE recur h rest]
    · simp [emaxLoopE, emaxLoop, hmv, hb, emaxLoopE_eq recurE recur h rest]

/-- C10: the chance-node division `avg_score / len(children)` never
divides by zero — the instrumented interpreter `expectimaxE`, which fails
exactly where Python would raise `ZeroDivisionError`, always succeeds and
agrees with `expectimax`: the chance branch runs only under the guard
that already rules out an empty children list. -/
theorem expectimaxE_total {σ : Type} (children : σ → Bool → List (String × σ))
    (evaluate : σ → FVal) (d : Nat) (s : σ) (isMax : Bool) :
    expectimaxE children evaluate d s isMax
      = some (expectimax children evaluate d s isMax) := by
  induction d generalizing s isMax with
  | zero => rfl
  | succ d ih =>
    rcases hcs : children s isMax with _ | ⟨c, rest⟩
    · simp [expectimaxE, expectimax, hcs]
    · by_cases hm : isMax
      · subst hm
        simp only [expectimaxE, expectimax, hcs, if_true]
        exact emaxLoopE_eq (fun t => expectimaxE children evaluate d t false)
          (fun t => (expectimax children evaluate d t false).1)
          (fun t => ⟨(expectimax children evaluate d t false).2,
            by simpa using ih t false⟩)
          (c :: rest) FVal.ninf none
      · simp only [expectimaxE, expectimax, hcs, if_neg hm]
        rw [collectScores_eq_map (fun t => expectimaxE children evaluate d t true)
          (fun t => expectimax children evaluate d t true) (fun t => ih t true)]
        simp

/-! ## C7: alpha-beta pruning never changes the returned score

The proof follows the classical fail-soft argument: relative to any
window `α < β`, the pruned recursion returns the exact unpruned value
when that value lies strictly inside the window, a value `≤ α` when it
lies at or below `α`, and a value `≥ β` when it lies at or above `β`;
with the default window `(⊥, ⊤)` the value is always recovered. -/

section AlphaBeta

variable {σ α' : Type}

theorem foldMax_seed_max (g : α' → Score) (z : Score) :
    ∀ (l : List α') (b : Score), foldMax g (max b z) l = max (foldMax g b l) z
  | [], b => rfl
  | c :: rest, b => by
    simp only [foldMax, List.foldl_cons] at *
    rw [show max (max b z) (g c) = max (max b (g c)) z from sup_right_comm b z (g c)]
    exact foldMax_seed_max g z rest (max b (g c))

theorem foldMax_ge_seed (g : α' → Score) :
    ∀ (l : List α') (b : Score), b ≤ foldMax g b l
  | [], b => le_refl b
  | c :: rest, b =>
    le_trans (le_max_left b (g c)) (foldMax_ge_seed g rest (max b (g c)))

theorem foldMax_le_iff (g : α' → Score) (z : Score) :
    ∀ (l : List α') (b : Score),
      foldMax g b l ≤ z ↔ b ≤ z ∧ ∀ c ∈ l, g c ≤ z
  | [], b => by simp [foldMax]
  | c :: rest, b => by
    rw [show foldMax g b (c :: rest) = foldMax g (max b (g c)) rest from rfl,
      foldMax_le_iff g z rest (max b (g c))]
    simp only [max_le_iff, List.mem_cons]
    constructor
    · rintro ⟨⟨hb, hc⟩, hrest⟩
      exact ⟨hb, fun x hx => hx.elim (fun he => he ▸ hc) (hrest x)⟩
    · rintro ⟨hb, hall⟩
      exact ⟨⟨hb, hall c (Or.inl rfl)⟩, fun x hx => hall x (Or.inr hx)⟩

theorem foldMax_ge_val (g : α' → Score) :
    ∀ (l : List α') (b : Score) (c : α'), c ∈ l → g c ≤ foldMax g b l := by
  intro l b c hc
  by_contra hlt
  rcases (foldMax_le_iff g (foldMax g b l) l b).mp (le_refl _) with ⟨_, hall⟩
  exact hlt (hall c hc)

theorem foldMax_cases (g : α' → Score) :
    ∀ (l : List α') (b : Score), foldMax g b l = b ∨ ∃ c ∈ l, foldMax g b l = g c
  | [], b => Or.inl rfl
  | c :: rest, b => by
    rcases foldMax_cases g rest (max b (g c)) with h | ⟨c', hc', h⟩
    · rcases max_choice b (g c) with hm | hm
      · exact Or.inl (by rw [show foldMax g b (c :: rest)
          = foldMax g (max b (g c)) rest from rfl, h, hm])
      · exact Or.inr ⟨c, List.mem_cons_self c rest, by
          rw [show foldMax g b (c :: rest)
            = foldMax g (max b (g c)) rest from rfl, h, hm]⟩
    · exact Or.inr ⟨c', List.mem_cons_of_mem c hc', h⟩

theorem foldMin_seed_min (g : α' → Score) (z : Score) :
    ∀ (l : List α') (b : Score), foldMin g (min b z) l = min (foldMin g b l) z
  | [], b => rfl
  | c :: rest, b => by
    simp only [foldMin, List.foldl_cons] at *
    rw [show min (min b z) (g c) = min (min b (g c)) z from inf_right_comm b z (g c)]
    exact foldMin_seed_min g z rest (min b (g c))

theorem foldMin_le_seed (g : α' → Score) :
    ∀ (l : List α') (b : Score), foldMin g b l ≤ b
  | [], b => le_refl b
  | c :: rest, b =>
    le_trans (foldMin_le_seed g rest (min b (g c))) (min_le_left b (g c))

theorem foldMin_ge_iff (g : α' → Score) (z : Score) :
    ∀ (l : List α') (b : Score),
      z ≤ foldMin g b l ↔ z ≤ b ∧ ∀ c ∈ l, z ≤ g c
  | [], b => by simp [foldMin]
  | c :: rest, b => by
    rw [show foldMin g b (c :: rest) = foldMin g (min b (g c)) rest from rfl,
      foldMin_ge_iff g z rest (min b (g c))]
    simp only [le_min_iff, List.mem_cons]
    constructor
    · rintro ⟨⟨hb, hc⟩, hrest⟩
      exact ⟨hb, fun x hx => hx.elim (fun he => he ▸ hc) (hrest x)⟩
    · rintro ⟨hb, hall⟩
      exact ⟨⟨hb, hall c (Or.inl rfl)⟩, fun x hx => hall x (Or.inr hx)⟩

theorem foldMin_le_val (g : α' → Score) :
    ∀ (l : List α') (b : Score) (c : α'), c ∈ l → foldMin g b l ≤ g c := by
  intro l b c hc
  by_contra hlt
  rcases (foldMin_ge_iff g (foldMin g b l) l b).mp (le_refl _) with ⟨_, hall⟩
  exact hlt (hall c hc)

theorem foldMin_cases (g : α' → Score) :
    ∀ (l : List α') (b : Score), foldMin g b l = b ∨ ∃ c ∈ l, foldMin g b l = g c
  | [], b => Or.inl rfl
  | c :: rest, b => by
    rcases foldMin_cases g rest (min b (g c)) with h | ⟨c', hc', h⟩
    · rcases min_choice b (g c) with hm | hm
      · exact Or.inl (by rw [show foldMin g b (c :: rest)
          = foldMin g (min b (g c)) rest from rfl, h, hm])
      · exact Or.inr ⟨c, List.mem_cons_self c rest, by
          rw [show foldMin g b (c :: rest)
            = foldMin g (min b (g c)) rest from rfl, h, hm]⟩
    · exact Or.inr ⟨c', List.mem_cons_of_mem c hc', h⟩

theorem abMaxLoop_cons (recur : σ → Score → Score → Score)
    (β α best : Score) (bm : Option String) (m : String) (c : σ)
    (rest : List (String × σ)) :
    abMaxLoop recur β α best bm ((m, c) :: rest)
      = (if β ≤ max α (recur c α β)
         then (if best < recur c α β then (recur c α β, some m) else (best, bm))
         else abMaxLoop recur β (max α (recur c α β))
           (if best < recur c α β then (recur c α β, some m) else (best, bm)).1
           (if best < recur c α β then (recur c α β, some m) else (best, bm)).2
           rest) := rfl

theorem npMaxLoop_cons (recur : σ → Score → Score → Score)
    (β α best : Score) (bm : Option String) (m : String) (c : σ)
    (rest : List (String × σ)) :
    npMaxLoop recur β α best bm ((m, c) :: rest)
      = npMaxLoop recur β (max α (recur c α β))
          (if best < recur c α β then (recur c α β, some m) else (best, bm)).1
          (if best < recur c α β then (recur c α β, some m) else (best, bm)).2
          rest := rfl

theorem ite_best_fst (best e : Score) (m : String) (bm : Option String) :
    (if best < e then (e, some m) else (best, bm)).1 = max best e := by
  rw [apply_ite Prod.fst]
  split_ifs with h
  · exact (max_eq_right h.le).symm
  · exact (max_eq_left (not_lt.mp h)).symm

/-- The unpruned maximizing loop computes the fold of `max` over the
children's values whenever the recursive calls are window-independent. -/
theorem npMaxLoop_fst (recur : σ → Score → Score → Score) (v : σ → Score)
    (hv : ∀ c a b, recur c a b = v c) (β : Score) :
    ∀ (l : List (String × σ)) (α best : Score) (bm : Option String),
      (npMaxLoop recur β α best bm l).1 = foldMax (fun c => v c.2) best l
  | [], _, _, _ => rfl
  | (m, c) :: rest, α, best, bm => by
    rw [npMaxLoop_cons, npMaxLoop_fst recur v hv β rest _ _ _, hv c α β,
      ite_best_fst]
    rfl

/-- Loop lower bound: the running best only grows. -/
theorem abMaxLoop_ge_best (recur : σ → Score → Score → Score) (β : Score) :
    ∀ (l : List (String × σ)) (α best : Score) (bm : Option String),
      best ≤ (abMaxLoop recur β α best bm l).1
  | [], _, best, _ => le_refl best
  | (m, c) :: rest, α, best, bm => by
    rw [abMaxLoop_cons]
    by_cases hp : β ≤ max α (recur c α β)
    · rw [if_pos hp, ite_best_fst]
      exact le_max_left _ _
    · rw [if_neg hp]
      calc best ≤ max best (recur c α β) := le_max_left _ _
        _ = (if best < recur c α β then (recur c α β, some m) else (best, bm)).1 :=
          (ite_best_fst _ _ _ _).symm
        _ ≤ _ := abMaxLoop_ge_best recur β rest _ _ _

/-- Fail-soft, low side: if every remaining value (and the running best)
is at most `α₀` and the window is still `(α₀, β)`, the loop's result is at
most `α₀`. -/
theorem abMaxLoop_le (recur : σ → Score → Score → Score) (v : σ → Score)
    (β α₀ : Score) (hαβ : α₀ < β)
    (hrec1 : ∀ c a, a < β → v c ≤ a → recur c a β ≤ a) :
    ∀ (l : List (String × σ)) (best : Score) (bm : Option String),
      foldMax (fun c => v c.2) best l ≤ α₀ →
      (abMaxLoop recur β α₀ best bm l).1 ≤ α₀
  | [], best, bm, hW => by
    simpa [foldMax] using hW
  | (m, c) :: rest, best, bm, hW => by
    rw [show foldMax (fun c => v c.2) best ((m, c) :: rest)
        = foldMax (fun c => v c.2) (max best (v c)) rest from rfl] at hW
    rcases (foldMax_le_iff _ _ _ _).mp hW with ⟨hbc, hrest⟩
    rcases max_le_iff.mp hbc with ⟨hb, hc⟩
    have he : recur c α₀ β ≤ α₀ := hrec1 c α₀ hαβ hc
    rw [abMaxLoop_cons, if_neg (by simpa [max_eq_left he] using not_le.mpr hαβ),
      max_eq_left he, ite_best_fst]
    exact abMaxLoop_le recur v β α₀ hαβ hrec1 rest (max best (recur c α₀ β)) _
      ((foldMax_le_iff _ _ _ _).mpr ⟨max_le hb he, hrest⟩)

/-- Fail-soft, high side: if some remaining value (or the running best)
reaches `β`, the loop's result reaches `β`. -/
theorem abMaxLoop_ge (recur : σ → Score → Score → Score) (v : σ → Score)
    (β : Score)
    (hrec2 : ∀ c a, a < β → β ≤ v c → β ≤ recur c a β) :
    ∀ (l : List (String × σ)) (α best : Score) (bm : Option String),
      α < β → β ≤ foldMax (fun c => v c.2) best l →
      β ≤ (abMaxLoop recur β α best bm l).1
  | [], _, best, _, _, hW => by simpa [foldMax] using hW
  | (m, c) :: rest, α, best, bm, hαβ, hW => by
    rw [show foldMax (fun c => v c.2) best ((m, c) :: rest)
        = foldMax (fun c => v c.2) (max best (v c)) rest from rfl] at hW
    rw [abMaxLoop_cons]
    by_cases hp : β ≤ max α (recur c α β)
    · -- pruned: β ≤ max α e with α < β forces β ≤ e, and the best is ≥ e
      rw [if_pos hp, ite_best_fst]
      rcases le_max_iff.mp hp with h | h
      · exact absurd h (not_le.mpr hαβ)
      · exact le_trans h (le_max_right _ _)
    · rw [if_neg hp]
      by_cases hc : β ≤ v c
      · -- the child's true value reaches β, so its fail-soft result does
        have he : β ≤ recur c α β := hrec2 c α hαβ hc
        refine le_trans he ?_
        refine le_trans (le_max_right best (recur c α β)) ?_
        rw [← ite_best_fst best (recur c α β) m bm]
        exact abMaxLoop_ge_best recur β rest _ _ _
      · -- β comes from the best or from a later child
        rcases foldMax_cases (fun c => v c.2) rest (max best (v c)) with h | ⟨c', hc', h⟩
        · rw [h] at hW
          rcases le_max_iff.mp hW with h' | h'
          · refine le_trans h' ?_
            refine le_trans (le_max_left best (recur c α β)) ?_
            rw [← ite_best_fst best (recur c α β) m bm]
            exact abMaxLoop_ge_best recur β rest _ _ _
          · exact absurd h' hc
        · rw [h] at hW
          exact abMaxLoop_ge recur v β hrec2 rest _ _ _ (not_le.mp hp)
            (le_trans hW (foldMax_ge_val (fun c => v c.2) rest _ c' hc'))

/-- Inside the window, the pruned maximizing loop computes exactly the
fold of `max` over the children's values. -/
theorem abMaxLoop_eq (recur : σ → Score → Score → Score) (v : σ → Score)
    (β α₀ : Score)
    (hrec : ∀ c a, a < β →
      (v c ≤ a → recur c a β ≤ a) ∧ (a < v c → v c < β → recur c a β = v c)) :
    ∀ (l : List (String × σ)) (α best : Score) (bm : Option String),
      α = max α₀ best → α < β →
      α₀ < foldMax (fun c => v c.2) best l →
      foldMax (fun c => v c.2) best l < β →
      (abMaxLoop recur β α best bm l).1 = foldMax (fun c => v c.2) best l
  | [], _, _, _, _, _, _, _ => rfl
  | (m, c) :: rest, α, best, bm, hinv, hαβ, hlo, hhi => by
    have hWdef : foldMax (fun c => v c.2) best ((m, c) :: rest)
        = foldMax (fun c => v c.2) (max best (v c)) rest := rfl
    rw [hWdef] at hlo hhi ⊢
    rw [abMaxLoop_cons]
    by_cases hvc : v c ≤ α
    · -- the child's value is at or below α: its result e stays ≤ α and
      -- neither the window nor the eventual fold value moves
      have he : recur c α β ≤ α := (hrec c α hαβ).1 hvc
      have hα' : max α (recur c α β) = α := max_eq_left he
      rw [hα', if_neg (not_le.mpr hαβ), ite_best_fst]
      have hseedeq : foldMax (fun c => v c.2) (max best (recur c α β)) rest
          = foldMax (fun c => v c.2) (max best (v c)) rest := by
        rw [foldMax_seed_max, foldMax_seed_max]
        have hKv : max (foldMax (fun c => v c.2) best rest) (v c)
            = foldMax (fun c => v c.2) best rest := by
          refine max_eq_left ?_
          rw [hinv] at hvc
          rcases le_max_iff.mp hvc with h | h
          · rw [foldMax_seed_max] at hlo
            rcases max_choice (foldMax (fun c => v c.2) best rest) (v c) with
              hch | hch
            · rw [hch] at hlo
              exact le_trans h hlo.le
            · rw [hch] at hlo
              exact absurd hlo (not_lt.mpr h)
          · exact le_trans h (foldMax_ge_seed _ _ _)
        rw [hKv]
        refine max_eq_left ?_
        have hle : recur c α β ≤ max α₀ best := hinv ▸ he
        rcases le_max_iff.mp hle with h | h
        · rw [foldMax_seed_max, hKv] at hlo
          exact le_trans h hlo.le
        · exact le_trans h (foldMax_ge_seed _ _ _)
      rw [← hseedeq] at hlo hhi ⊢
      refine abMaxLoop_eq recur v β α₀ hrec rest α
        (max best (recur c α β)) _ ?_ hαβ hlo hhi
      rw [hinv, ← max_assoc]
      exact (max_eq_left (hinv ▸ he)).symm
    · -- α < v c < β: the child's result is its exact value
      have hvcβ : v c < β :=
        lt_of_le_of_lt
          (le_trans (le_max_right best (v c)) (foldMax_ge_seed _ _ _)) hhi
      have he : recur c α β = v c := (hrec c α hαβ).2 (not_le.mp hvc) hvcβ
      have hα' : max α (recur c α β) < β := by
        rw [he]; exact max_lt hαβ hvcβ
      rw [if_neg (not_le.mpr hα'), ite_best_fst, he]
      refine abMaxLoop_eq recur v β α₀ hrec rest (max α (v c))
        (max best (v c)) _ ?_ (he ▸ hα') hlo hhi
      rw [hinv, max_assoc]

theorem abMinLoop_cons (recur : σ → Score → Score → Score)
    (α β best : Score) (bm : Option String) (m : String) (c : σ)
    (rest : List (String × σ)) :
    abMinLoop recur α β best bm ((m, c) :: rest)
      = (if min β (recur c α β) ≤ α
         then (if recur c α β < best then (recur c α β, some m) else (best, bm))
         else abMinLoop recur α (min β (recur c α β))
           (if recur c α β < best then (recur c α β, some m) else (best, bm)).1
           (if recur c α β < best then (recur c α β, some m) else (best, bm)).2
           rest) := rfl

theorem npMinLoop_cons (recur : σ → Score → Score → Score)
    (α β best : Score) (bm : Option String) (m : String) (c : σ)
    (rest : List (String × σ)) :
    npMinLoop recur α β best bm ((m, c) :: rest)
      = npMinLoop recur α (min β (recur c α β))
          (if recur c α β < best then (recur c α β, some m) else (best, bm)).1
          (if recur c α β < best then (recur c α β, some m) else (best, bm)).2
          rest := rfl

theorem ite_best_fst_min (best e : Score) (m : String) (bm : Option String) :
    (if e < best then (e, some m) else (best, bm)).1 = min best e := by
  rw [apply_ite Prod.fst]
  split_ifs with h
  · exact (min_eq_right h.le).symm
  · exact (min_eq_left (not_lt.mp h)).symm

/-- The unpruned minimizing loop computes the fold of `min`. -/
theorem npMinLoop_fst (recur : σ → Score → Score → Score) (v : σ → Score)
    (hv : ∀ c a b, recur c a b = v c) (α : Score) :
    ∀ (l : List (String × σ)) (β best : Score) (bm : Option String),
      (npMinLoop recur α β best bm l).1 = foldMin (fun c => v c.2) best l
  | [], _, _, _ => rfl
  | (m, c) :: rest, β, best, bm => by
    rw [npMinLoop_cons, npMinLoop_fst recur v hv α rest _ _ _, hv c α β,
      ite_best_fst_min]
    rfl

/-- Loop upper bound: the running best only falls. -/
theorem abMinLoop_le_best (recur : σ → Score → Score → Score) (α : Score) :
    ∀ (l : List (String × σ)) (β best : Score) (bm : Option String),
      (abMinLoop recur α β best bm l).1 ≤ best
  | [], _, best, _ => le_refl best
  | (m, c) :: rest, β, best, bm => by
    rw [abMinLoop_cons]
    by_cases hp : min β (recur c α β) ≤ α
    · rw [if_pos hp, ite_best_fst_min]
      exact min_le_left _ _
    · rw [if_neg hp]
      calc (abMinLoop recur α (min β (recur c α β))
            (if recur c α β < best then (recur c α β, some m) else (best, bm)).1
            (if recur c α β < best then (recur c α β, some m) else (best, bm)).2
            rest).1
          ≤ (if recur c α β < best then (recur c α β, some m) else (best, bm)).1 :=
            abMinLoop_le_best recur α rest _ _ _
        _ = min best (recur c α β) := ite_best_fst_min _ _ _ _
        _ ≤ best := min_le_left _ _

/-- Fail-soft, high side of the minimizing loop. -/
theorem abMinLoop_ge (recur : σ → Score → Score → Score) (v : σ → Score)
    (α β₀ : Score) (hαβ : α < β₀)
    (hrec1 : ∀ c b, α < b → b ≤ v c → b ≤ recur c α b) :
    ∀ (l : List (String × σ)) (best : Score) (bm : Option String),
      β₀ ≤ foldMin (fun c => v c.2) best l →
      β₀ ≤ (abMinLoop recur α β₀ best bm l).1
  | [], best, bm, hW => by simpa [foldMin] using hW
  | (m, c) :: rest, best, bm, hW => by
    rw [show foldMin (fun c => v c.2) best ((m, c) :: rest)
        = foldMin (fun c => v c.2) (min best (v c)) rest from rfl] at hW
    rcases (foldMin_ge_iff _ _ _ _).mp hW with ⟨hbc, hrest⟩
    rcases le_min_iff.mp hbc with ⟨hb, hc⟩
    have he : β₀ ≤ recur c α β₀ := hrec1 c β₀ hαβ hc
    rw [abMinLoop_cons, if_neg (by simpa [min_eq_left he] using not_le.mpr hαβ),
      min_eq_left he, ite_best_fst_min]
    exact abMinLoop_ge recur v α β₀ hαβ hrec1 rest (min best (recur c α β₀)) _
      ((foldMin_ge_iff _ _ _ _).mpr ⟨le_min hb he, hrest⟩)

/-- Fail-soft, low side of the minimizing loop. -/
theorem abMinLoop_le (recur : σ → Score → Score → Score) (v : σ → Score)
    (α : Score)
    (hrec2 : ∀ c b, α < b → v c ≤ α → recur c α b ≤ α) :
    ∀ (l : List (String × σ)) (β best : Score) (bm : Option String),
      α < β → foldMin (fun c => v c.2) best l ≤ α →
      (abMinLoop recur α β best bm l).1 ≤ α
  | [], _, best, _, _, hW => by simpa [foldMin] using hW
  | (m, c) :: rest, β, best, bm, hαβ, hW => by
    rw [show foldMin (fun c => v c.2) best ((m, c) :: rest)
        = foldMin (fun c => v c.2) (min best (v c)) rest from rfl] at hW
    rw [abMinLoop_cons]
    by_cases hp : min β (recur c α β) ≤ α
    · rw [if_pos hp, ite_best_fst_min]
      rcases min_le_iff.mp hp with h | h
      · exact absurd h (not_le.mpr hαβ)
      · exact le_trans (min_le_right _ _) h
    · rw [if_neg hp]
      by_cases hc : v c ≤ α
      · have he : recur c α β ≤ α := hrec2 c β hαβ hc
        refine le_trans (abMinLoop_le_best recur α rest _ _ _) ?_
        rw [ite_best_fst_min]
        exact le_trans (min_le_right _ _) he
      · rcases foldMin_cases (fun c => v c.2) rest (min best (v c)) with
          h | ⟨c', hc', h⟩
        · rw [h] at hW
          rcases min_le_iff.mp hW with h' | h'
          · refine le_trans (abMinLoop_le_best recur α rest _ _ _) ?_
            rw [ite_best_fst_min]
            exact le_trans (min_le_left _ _) h'
          · exact absurd h' hc
        · rw [h] at hW
          exact abMinLoop_le recur v α hrec2 rest _ _ _ (not_le.mp hp)
            (le_trans (foldMin_le_val (fun c => v c.2) rest _ c' hc') hW)

/-- Inside the window, the pruned minimizing loop computes exactly the
fold of `min` over the children's values. -/
theorem abMinLoop_eq (recur : σ → Score → Score → Score) (v : σ → Score)
    (α β₀ : Score)
    (hrec : ∀ c b, α < b →
      (b ≤ v c → b ≤ recur c α b) ∧ (α < v c → v c < b → recur c α b = v c)) :
    ∀ (l : List (String × σ)) (β best : Score) (bm : Option String),
      β = min β₀ best → α < β →
      α < foldMin (fun c => v c.2) best l →
      foldMin (fun c => v c.2) best l < β₀ →
      (abMinLoop recur α β best bm l).1 = foldMin (fun c => v c.2) best l
  | [], _, _, _, _, _, _, _ => rfl
  | (m, c) :: rest, β, best, bm, hinv, hαβ, hlo, hhi => by
    have hWdef : foldMin (fun c => v c.2) best ((m, c) :: rest)
        = foldMin (fun c => v c.2) (min best (v c)) rest := rfl
    rw [hWdef] at hlo hhi ⊢
    rw [abMinLoop_cons]
    by_cases hvc : β ≤ v c
    · -- the child's value is at or above β: its result e stays ≥ β
      have he : β ≤ recur c α β := (hrec c β hαβ).1 hvc
      have hβ' : min β (recur c α β) = β := min_eq_left he
      rw [hβ', if_neg (not_le.mpr hαβ), ite_best_fst_min]
      have hseedeq : foldMin (fun c => v c.2) (min best (recur c α β)) rest
          = foldMin (fun c => v c.2) (min best (v c)) rest := by
        rw [foldMin_seed_min, foldMin_seed_min]
        have hKv : min (foldMin (fun c => v c.2) best rest) (v c)
            = foldMin (fun c => v c.2) best rest := by
          refine min_eq_left ?_
          rw [hinv] at hvc
          rcases min_le_iff.mp hvc with h | h
          · rw [foldMin_seed_min] at hhi
            rcases min_choice (foldMin (fun c => v c.2) best rest) (v c) with
              hch | hch
            · rw [hch] at hhi
              exact le_trans hhi.le h
            · rw [hch] at hhi
              exact absurd hhi (not_lt.mpr h)
          · exact le_trans (foldMin_le_seed _ _ _) h
        rw [hKv]
        refine min_eq_left ?_
        have hle : min β₀ best ≤ recur c α β := hinv ▸ he
        rcases min_le_iff.mp hle with h | h
        · rw [foldMin_seed_min, hKv] at hhi
          exact le_trans hhi.le h
        · exact le_trans (foldMin_le_seed _ _ _) h
      rw [← hseedeq] at hlo hhi ⊢
      refine abMinLoop_eq recur v α β₀ hrec rest β
        (min best (recur c α β)) _ ?_ hαβ hlo hhi
      rw [hinv, ← min_assoc]
      exact (min_eq_left (hinv ▸ he)).symm
    · -- α < v c < β: the child's result is its exact value
      have hvcα : α < v c :=
        lt_of_lt_of_le hlo
          (le_trans (foldMin_le_seed _ _ _) (min_le_right best (v c)))
      have he : recur c α β = v c := (hrec c β hαβ).2 hvcα (not_le.mp hvc)
      have hβ' : α < min β (recur c α β) := by
        rw [he]; exact lt_min hαβ hvcα
      rw [if_neg (not_le.mpr hβ'), ite_best_fst_min, he]
      refine abMinLoop_eq recur v α β₀ hrec rest (min β (v c))
        (min best (v c)) _ ?_ (he ▸ hβ') hlo hhi
      rw [hinv, min_assoc]

/-- The score of the unpruned recursion does not depend on the window. -/
theorem minimaxNP_fst_window (children : σ → Bool → List (String × σ))
    (evaluate : σ → Score) :
    ∀ (d : Nat) (s : σ) (mb : Bool) (a b a₂ b₂ : Score),
      (minimaxNP children evaluate d s mb a b).1
        = (minimaxNP children evaluate d s mb a₂ b₂).1 := by
  intro d
  induction d with
  | zero => intro s mb a b a₂ b₂; rfl
  | succ d ih =>
    intro s mb a b a₂ b₂
    rcases hcs : children s mb with _ | ⟨c, rest⟩
    · simp [minimaxNP, hcs]
    · cases mb with
      | true =>
        simp only [minimaxNP, hcs, if_pos]
        rw [npMaxLoop_fst _ (fun t => (minimaxNP children evaluate d t false ⊥ ⊤).1)
            (fun t x y => ih t false x y ⊥ ⊤) b (c :: rest) a ⊥ none,
          npMaxLoop_fst _ (fun t => (minimaxNP children evaluate d t false ⊥ ⊤).1)
            (fun t x y => ih t false x y ⊥ ⊤) b₂ (c :: rest) a₂ ⊥ none]
      | false =>
        simp only [minimaxNP, hcs, Bool.false_eq_true, if_false]
        rw [npMinLoop_fst _ (fun t => (minimaxNP children evaluate d t true ⊥ ⊤).1)
            (fun t x y => ih t true x y ⊥ ⊤) a (c :: rest) b ⊤ none,
          npMinLoop_fst _ (fun t => (minimaxNP children evaluate d t true ⊥ ⊤).1)
            (fun t x y => ih t true x y ⊥ ⊤) a₂ (c :: rest) b₂ ⊤ none]

/-- The classical fail-soft window lemma: relative to a window `α < β`,
pruned minimax returns the unpruned score when it lies inside the window,
clamps below `α` when the score is at most `α`, and clamps above `β` when
the score is at least `β`. -/
theorem minimax_window (children : σ → Bool → List (String × σ))
    (evaluate : σ → Score) :
    ∀ (d : Nat) (s : σ) (mb : Bool) (α β : Score), α < β →
      ((minimaxNP children evaluate d s mb ⊥ ⊤).1 ≤ α →
        (minimax children evaluate d s mb α β).1 ≤ α) ∧
      (β ≤ (minimaxNP children evaluate d s mb ⊥ ⊤).1 →
        β ≤ (minimax children evaluate d s mb α β).1) ∧
      (α < (minimaxNP children evaluate d s mb ⊥ ⊤).1 →
        (minimaxNP children evaluate d s mb ⊥ ⊤).1 < β →
        (minimax children evaluate d s mb α β).1
          = (minimaxNP children evaluate d s mb ⊥ ⊤).1) := by
  intro d
  induction d with
  | zero => exact fun s mb α β _ => ⟨fun h => h, fun h => h, fun _ _ => rfl⟩
  | succ d ih =>
    intro s mb α β hαβ
    rcases hcs : children s mb with _ | ⟨c, rest⟩
    · simp only [minimax, minimaxNP, hcs]
      exact ⟨fun h => h, fun h => h, fun _ _ => trivial⟩
    · cases mb with
      | true =>
        have hNP : (minimaxNP children evaluate (d + 1) s true ⊥ ⊤).1
            = foldMax (fun t => (minimaxNP children evaluate d t.2 false ⊥ ⊤).1)
                ⊥ (c :: rest) := by
          simp only [minimaxNP, hcs, if_pos]
          exact npMaxLoop_fst _
            (fun t => (minimaxNP children evaluate d t false ⊥ ⊤).1)
            (fun t x y => minimaxNP_fst_window children evaluate d t false x y ⊥ ⊤)
            ⊤ (c :: rest) ⊥ ⊥ none
        have hAB : minimax children evaluate (d + 1) s true α β
            = abMaxLoop (fun t a b => (minimax children evaluate d t false a b).1)
                β α ⊥ none (c :: rest) := by
          simp only [minimax, hcs, if_pos]
        rw [hNP, hAB]
        refine ⟨?_, ?_, ?_⟩
        · intro hW
          exact abMaxLoop_le _
            (fun t => (minimaxNP children evaluate d t false ⊥ ⊤).1) β α hαβ
            (fun t a ha hv => (ih t false a β ha).1 hv) (c :: rest) ⊥ none hW
        · intro hW
          exact abMaxLoop_ge _
            (fun t => (minimaxNP children evaluate d t false ⊥ ⊤).1) β
            (fun t a ha hv => (ih t false a β ha).2.1 hv) (c :: rest) α ⊥ none hαβ hW
        · intro hlo hhi
          exact abMaxLoop_eq _
            (fun t => (minimaxNP children evaluate d t false ⊥ ⊤).1) β α
            (fun t a ha => ⟨fun hv => (ih t false a β ha).1 hv,
              fun h1 h2 => (ih t false a β ha).2.2 h1 h2⟩)
            (c :: rest) α ⊥ none (max_eq_left bot_le).symm hαβ hlo hhi
      | false =>
        have hNP : (minimaxNP children evaluate (d + 1) s false ⊥ ⊤).1
            = foldMin (fun t => (minimaxNP children evaluate d t.2 true ⊥ ⊤).1)
                ⊤ (c :: rest) := by
          simp only [minimaxNP, hcs, Bool.false_eq_true, if_false]
          exact npMinLoop_fst _
            (fun t => (minimaxNP children evaluate d t true ⊥ ⊤).1)
            (fun t x y => minimaxNP_fst_window children evaluate d t true x y ⊥ ⊤)
            ⊥ (c :: rest) ⊤ ⊤ none
        have hAB : minimax children evaluate (d + 1) s false α β
            = abMinLoop (fun t a b => (minimax children evaluate d t true a b).1)
                α β ⊤ none (c :: rest) := by
          simp only [minimax, hcs, Bool.false_eq_true, if_false]
        rw [hNP, hAB]
        refine ⟨?_, ?_, ?_⟩
        · intro hW
          exact abMinLoop_le _
            (fun t => (minimaxNP children evaluate d t true ⊥ ⊤).1) α
            (fun t b hb hv => (ih t true α b hb).1 hv) (c :: rest) β ⊤ none hαβ hW
        · intro hW
          exact abMinLoop_ge _
            (fun t => (minimaxNP children evaluate d t true ⊥ ⊤).1) α β hαβ
            (fun t b hb hv => (ih t true α b hb).2.1 hv) (c :: rest) ⊤ none hW
        · intro hlo hhi
          exact abMinLoop_eq _
            (fun t => (minimaxNP children evaluate d t true ⊥ ⊤).1) α β
            (fun t b hb => ⟨fun hv => (ih t true α b hb).2.1 hv,
              fun h1 h2 => (ih t true α b hb).2.2 h1 h2⟩)
            (c :: rest) β ⊤ none (min_eq_left le_top).symm hαβ hlo hhi

end AlphaBeta

/-- C7: with the default bounds `alpha = -inf`, `beta = +inf`, minimax
with alpha-beta pruning returns the same score as the identical recursion
with the two `break` statements removed — pruning only skips work. -/
theorem minimax_pruning_preserves_score {σ : Type}
    (children : σ → Bool → List (String × σ)) (evaluate : σ → Score)
    (d : Nat) (s : σ) (mb : Bool) :
    (minimax children evaluate d s mb ⊥ ⊤).1
      = (minimaxNP children evaluate d s mb ⊥ ⊤).1 := by
  have h := minimax_window children evaluate d s mb ⊥ ⊤ bot_lt_top
  rcases eq_bot_or_bot_lt (minimaxNP children evaluate d s mb ⊥ ⊤).1 with hb | hb
  · rw [hb]
    exact le_bot_iff.mp (h.1 (le_of_eq hb))
  · rcases eq_top_or_lt_top (minimaxNP children evaluate d s mb ⊥ ⊤).1 with
      ht | ht
    · rw [ht]
      exact top_le_iff.mp (h.2.1 (ge_of_eq ht))
    · exact h.2.2 hb ht

/-! ## C4 and C6: the pathfinder's start handling and obstacle avoidance -/

theorem alookup_mem {β : Type} :
    ∀ (l : List (Coord × β)) (a : Coord) (b : β),
      alookup a l = some b → (a, b) ∈ l
  | [], a, b, h => by simp [alookup] at h
  | (k, v) :: rest, a, b, h => by
    by_cases hk : a = k
    · subst hk
      simp only [alookup, if_pos rfl] at h
      injection h with h
      subst h
      exact List.mem_cons_self _ _
    · simp only [alookup, if_neg hk] at h
      exact List.mem_cons_of_mem _ (alookup_mem rest a b h)

theorem alookup_cons_isSome {β : Type} (x : Coord × β) (l : List (Coord × β))
    (a : Coord) (h : (alookup a l).isSome) : (alookup a (x :: l)).isSome := by
  rcases x with ⟨k, v⟩
  by_cases hk : a = k
  · simp [alookup, hk]
  · simpa [alookup, hk] using h

theorem minEntry_mem : ∀ (l : List (Nat × Coord)) (e : Nat × Coord),
    minEntry e l ∈ e :: l
  | [], e => List.mem_cons_self e []
  | f :: rest, e => by
    show minEntry (if entryLt f e then f else e) rest ∈ e :: f :: rest
    rcases List.mem_cons.mp (minEntry_mem rest (if entryLt f e then f else e)) with
      h | h
    · rw [h]
      split_ifs
      · exact List.mem_cons_of_mem _ (List.mem_cons_self _ _)
      · exact List.mem_cons_self _ _
    · exact List.mem_cons_of_mem _ (List.mem_cons_of_mem _ h)

/-- Every cell the reconstruction walk emits is a `came_from` key (or was
already in the accumulator). -/
theorem reconstruct_cells (came : List (Coord × Option Coord)) (P : Coord → Prop)
    (hkeys : ∀ pr ∈ came, P pr.1)
    (hvals : ∀ pr ∈ came, ∀ c : Coord, pr.2 = some c → (alookup c came).isSome) :
    ∀ (fuel : Nat) (cur : Option Coord) (acc : List Coord),
      (∀ c : Coord, cur = some c → (alookup c came).isSome) →
      (∀ c ∈ acc, P c) →
      ∀ x ∈ reconstruct came fuel cur acc, P x
  | 0, _, _, _, hacc => hacc
  | _ + 1, none, _, _, hacc => hacc
  | fuel + 1, some c, acc, hcur, hacc => by
    obtain ⟨v, hv⟩ := Option.isSome_iff_exists.mp (hcur c rfl)
    have hmem : (c, v) ∈ came := alookup_mem came c v hv
    have hPc : P c := hkeys (c, v) hmem
    show ∀ x ∈ reconstruct came fuel ((alookup c came).getD none) (c :: acc), P x
    exact reconstruct_cells came P hkeys hvals fuel _ (c :: acc)
      (fun c' hc' => by
        rw [hv, Option.getD_some] at hc'
        exact hvals (c, v) hmem c' hc')
      (fun x hx => (List.mem_cons.mp hx).elim (fun he => he ▸ hPc) (hacc x))

/-- `expandNeighbor` either leaves the state alone or pushes one new
in-bounds, non-obstacle-or-goal cell with parent `current`. -/
theorem expandNeighbor_shape (endC : Coord) (obstacles : List Coord)
    (w h : Int) (current : Coord) (st : AState) (d : Int × Int) :
    expandNeighbor endC obstacles w h current st d = st ∨
    ∃ (nb : Coord) (pr cv : Nat),
      inBounds w h nb = true ∧
      (obstacles.contains nb = false ∨ nb = endC) ∧
      expandNeighbor endC obstacles w h current st d
        = { pq := (pr, nb) :: st.pq, came := (nb, some current) :: st.came,
            cost := (nb, cv) :: st.cost } := by
  unfold expandNeighbor
  dsimp only
  split_ifs with h1 h2 h3
  · exact Or.inl rfl
  · exact Or.inl rfl
  · refine Or.inr ⟨⟨current.x + d.1, current.y + d.2⟩, _, _, ?_, ?_, rfl⟩
    · simpa using h1
    · by_cases hco :
        obstacles.contains ⟨current.x + d.1, current.y + d.2⟩ = true
      · refine Or.inr ?_
        by_contra hne
        refine h2 (by simp [hne]; simpa [List.elem_iff] using hco)
      · exact Or.inl (by simpa using hco)
  · exact Or.inl rfl

theorem expandNeighbor_pres (P : Coord → Prop) (endC : Coord)
    (obstacles : List Coord) (w h : Int)
    (hnew : ∀ nb : Coord, inBounds w h nb = true →
      (obstacles.contains nb = false ∨ nb = endC) → P nb)
    (current : Coord) (st : AState) (d : Int × Int)
    (hinv : AInv P st) (hcur : (alookup current st.came).isSome) :
    AInv P (expandNeighbor endC obstacles w h current st d) ∧
      (alookup current (expandNeighbor endC obstacles w h current st d).came).isSome := by
  rcases expandNeighbor_shape endC obstacles w h current st d with
    heq | ⟨nb, pr, cv, hb, hobs, heq⟩
  · rw [heq]; exact ⟨hinv, hcur⟩
  · rw [heq]
    obtain ⟨hkeys, hvals, hpq⟩ := hinv
    refine ⟨⟨?_, ?_, ?_⟩, alookup_cons_isSome _ _ _ hcur⟩
    · rintro pr' hpr'
      rcases List.mem_cons.mp hpr' with he | hm
      · rw [he]; exact hnew nb hb hobs
      · exact hkeys pr' hm
    · rintro pr' hpr' c hc
      rcases List.mem_cons.mp hpr' with he | hm
      · have : c = current := by
          rw [he] at hc
          exact (Option.some.inj hc).symm
        rw [this]
        exact alookup_cons_isSome _ _ _ hcur
      · exact alookup_cons_isSome _ _ _ (hvals pr' hm c hc)
    · rintro e he
      rcases List.mem_cons.mp he with h | h
      · rw [h]
        simp [alookup]
      · exact alookup_cons_isSome _ _ _ (hpq e h)

theorem foldl_expand_pres (P : Coord → Prop) (endC : Coord)
    (obstacles : List Coord) (w h : Int)
    (hnew : ∀ nb : Coord, inBounds w h nb = true →
      (obstacles.contains nb = false ∨ nb = endC) → P nb)
    (current : Coord) :
    ∀ (ds : List (Int × Int)) (st : AState),
      AInv P st → (alookup current st.came).isSome →
      AInv P (ds.foldl (expandNeighbor endC obstacles w h current) st)
  | [], _, hinv, _ => hinv
  | d :: rest, st, hinv, hcur => by
    obtain ⟨hinv', hcur'⟩ :=
      expandNeighbor_pres P endC obstacles w h hnew current st d hinv hcur
    exact foldl_expand_pres P endC obstacles w h hnew current rest _ hinv' hcur'

/-- Any path the loop returns consists of cells satisfying the key
property `P`. -/
theorem astarLoop_keyP (P : Coord → Prop) (endC : Coord)
    (obstacles : List Coord) (w h : Int)
    (hnew : ∀ nb : Coord, inBounds w h nb = true →
      (obstacles.contains nb = false ∨ nb = endC) → P nb) :
    ∀ (fuel : Nat) (st : AState) (p : List Coord),
      AInv P st →
      astarLoop endC obstacles w h fuel st = some (some p) →
      ∀ c ∈ p, P c
  | 0, st, p, _, heq => by simp [astarLoop] at heq
  | fuel + 1, st, p, hinv, heq => by
    obtain ⟨hkeys, hvals, hpq⟩ := hinv
    rcases hpq' : st.pq with _ | ⟨e, rest⟩
    · simp [astarLoop, hpq'] at heq
    · simp only [astarLoop, hpq'] at heq
      by_cases hcur : (minEntry e rest).2 = endC
      · rw [if_pos hcur] at heq
        injection heq with heq
        injection heq with heq
        subst heq
        have hkey : (alookup (minEntry e rest).2 st.came).isSome :=
          hpq _ (hpq' ▸ minEntry_mem rest e)
        exact reconstruct_cells st.came P hkeys hvals _ _ []
          (fun c' hc' => by rw [← Option.some.inj hc']; exact hkey)
          (by simp)
      · rw [if_neg hcur] at heq
        refine astarLoop_keyP P endC obstacles w h hnew fuel _ p ?_ heq
        refine foldl_expand_pres P endC obstacles w h hnew _ astarDeltas _
          ⟨hkeys, hvals, ?_⟩ ?_
        · intro e' he'
          exact hpq e' (hpq' ▸ List.erase_subset _ _ he')
        · exact hpq _ (hpq' ▸ minEntry_mem rest e)

/-- C6 (amended): a path returned by `a_star` never contains an obstacle
cell other than the goal cell or the start cell (the start is never
bounds- or obstacle-checked, so a path may begin on an obstacle — as it
does for the callers, whose own head is in the obstacle set). -/
theorem a_star_path_avoids_obstacles (start endC : Coord)
    (obstacles : List Coord) (w h : Int) (p : List Coord)
    (hrun : a_star start endC obstacles w h = some (some p)) :
    ∀ c ∈ p, c ∈ obstacles → c = endC ∨ c = start := by
  refine astarLoop_keyP (fun c => c ∈ obstacles → c = endC ∨ c = start)
    endC obstacles w h ?_ _ _ p ⟨?_, ?_, ?_⟩ hrun
  · intro nb _ hobs hmem
    rcases hobs with hf | he
    · exfalso
      have hc : obstacles.contains nb = true := by
        simpa [List.elem_iff] using hmem
      rw [hc] at hf
      exact absurd hf (by decide)
    · exact Or.inl he
  · rintro pr hpr
    rcases List.mem_cons.mp hpr with he | hm
    · rw [he]; exact fun _ => Or.inr rfl
    · simp at hm
  · rintro pr hpr c hc
    rcases List.mem_cons.mp hpr with he | hm
    · rw [he] at hc; simp at hc
    · simp at hm
  · rintro e he
    rcases List.mem_cons.mp he with h | h
    · rw [h]; simp [alookup]
    · simp at h

/-- C6 counterexample: with the start itself an obstacle (exactly the
callers' situation — the mover's head is in the obstacle set), the
returned path contains an obstacle cell that is not the goal. -/
theorem a_star_path_contains_obstacle_start :
    a_star ⟨0, 0⟩ ⟨1, 0⟩ [⟨0, 0⟩] 3 3 = some (some [⟨0, 0⟩, ⟨1, 0⟩]) ∧
    (⟨0, 0⟩ : Coord) ∈ [(⟨0, 0⟩ : Coord)] ∧ (⟨0, 0⟩ : Coord) ≠ ⟨1, 0⟩ := by
  refine ⟨by decide, by decide, by decide⟩

/-- C6 witness: the amended statement applied on a concrete board whose
goal cell is an obstacle. -/
theorem a_star_path_avoids_obstacles_witness :
    (⟨2, 0⟩ : Coord) = ⟨2, 0⟩ ∨ (⟨2, 0⟩ : Coord) = ⟨0, 0⟩ :=
  a_star_path_avoids_obstacles ⟨0, 0⟩ ⟨2, 0⟩ [⟨2, 0⟩] 3 3
    [⟨0, 0⟩, ⟨1, 0⟩, ⟨2, 0⟩] (by decide) ⟨2, 0⟩ (by decide) (by decide)

/-- The first loop iteration pops the only queue entry, the start; when
the start is also the goal the path `[start]` is returned at once. -/
theorem astarLoop_start_goal (endC : Coord) (obstacles : List Coord)
    (w h : Int) (fuel : Nat) :
    astarLoop endC obstacles w h (fuel + 1)
      { pq := [(0, endC)], came := [(endC, none)], cost := [(endC, 0)] }
      = some (some [endC]) := by
  simp [astarLoop, minEntry, reconstruct, alookup]

/-- C4 (amended): `a_star` applies no bounds check to the start
coordinate; in particular, with the start equal to the goal it returns
the single-cell path `[start]` even when the start is out of bounds,
rather than returning no path. -/
theorem a_star_start_eq_goal (start : Coord) (obstacles : List Coord)
    (w h : Int) (_hout : inBounds w h start = false) :
    a_star start start obstacles w h = some (some [start]) :=
  astarLoop_start_goal start obstacles w h _

/-- C4 counterexample: an out-of-bounds start with the goal equal to it
yields the path `[start]`, not none. -/
theorem a_star_out_of_bounds_start_returns_path :
    a_star ⟨-1, 0⟩ ⟨-1, 0⟩ [] 5 5 = some (some [⟨-1, 0⟩]) ∧
    inBounds 5 5 ⟨-1, 0⟩ = false := by
  refine ⟨by decide, by decide⟩

/-- C4 witness: the amended statement at the concrete out-of-bounds
start (-1, 0). -/
theorem a_star_start_eq_goal_witness :
    a_star ⟨-1, 0⟩ ⟨-1, 0⟩ [] 5 5 = some (some [⟨-1, 0⟩]) :=
  a_star_start_eq_goal ⟨-1, 0⟩ [] 5 5 (by decide)

/-! ## C5: shortest paths

Part A (any returned path is a valid path and no valid path is shorter)
follows the classical argument: with the consistent Manhattan heuristic,
when the goal's queue entry is popped its recorded cost is dominated by
the length of every valid path, and the reconstructed parent chain has at
most that many steps.  Part B (on an empty board the search terminates
and returns a path of length 1 + Manhattan distance) additionally needs
a termination bound for the chosen fuel. -/

theorem manhattan_self (a : Coord) : manhattan a a = 0 := by
  simp [manhattan]

theorem manhattan_triangle (a b c : Coord) :
    manhattan a c ≤ manhattan a b + manhattan b c := by
  unfold manhattan
  omega

theorem delta_manhattan (a : Coord) :
    ∀ d ∈ astarDeltas, manhattan a ⟨a.x + d.1, a.y + d.2⟩ = 1 := by
  intro d hd
  simp only [astarDeltas, List.mem_cons, List.not_mem_nil, or_false] at hd
  rcases hd with rfl | rfl | rfl | rfl <;> simp [manhattan]

theorem delta_ne (a : Coord) :
    ∀ d ∈ astarDeltas, (⟨a.x + d.1, a.y + d.2⟩ : Coord) ≠ a := by
  intro d hd hcontra
  have hx : a.x + d.1 = a.x := congrArg Coord.x hcontra
  have hy : a.y + d.2 = a.y := congrArg Coord.y hcontra
  simp only [astarDeltas, List.mem_cons, List.not_mem_nil, or_false] at hd
  rcases hd with rfl | rfl | rfl | rfl <;> (simp at hx hy)

theorem adjacent_delta (a b : Coord) (hadj : manhattan a b = 1) :
    ∃ d ∈ astarDeltas, b = ⟨a.x + d.1, a.y + d.2⟩ := by
  unfold manhattan at hadj
  have : (b.x - a.x = 0 ∧ (b.y - a.y = 1 ∨ b.y - a.y = -1)) ∨
      (b.y - a.y = 0 ∧ (b.x - a.x = 1 ∨ b.x - a.x = -1)) := by omega
  rcases b with ⟨bx, by'⟩
  rcases this with ⟨h1, h2 | h2⟩ | ⟨h1, h2 | h2⟩
  · exact ⟨(0, 1), by simp [astarDeltas], by simp at h1 h2 ⊢; omega⟩
  · exact ⟨(0, -1), by simp [astarDeltas], by simp at h1 h2 ⊢; omega⟩
  · exact ⟨(1, 0), by simp [astarDeltas], by simp at h1 h2 ⊢; omega⟩
  · exact ⟨(-1, 0), by simp [astarDeltas], by simp at h1 h2 ⊢; omega⟩

/-- Along a unit-step chain, the Manhattan distance from the head to the
last cell is at most the number of steps. -/
theorem chain_manhattan_le :
    ∀ (l : List Coord) (a b : Coord),
      List.Chain' (fun x y => manhattan x y = 1) l →
      l.head? = some a → l.getLast? = some b →
      manhattan a b ≤ l.length - 1
  | [], a, b, _, ha, _ => by simp at ha
  | [z], a, b, _, ha, hb => by
    have ha' : z = a := by simpa using ha
    have hb' : z = b := by simpa using hb
    rw [← ha', ← hb']
    simp [manhattan_self]
  | z :: z' :: rest, a, b, hchain, ha, hb => by
    have ha' : z = a := by simpa using ha
    rw [← ha']
    have h1 : manhattan z z' = 1 := (List.chain'_cons.mp hchain).1
    have h2 := chain_manhattan_le (z' :: rest) z' b
      (List.chain'_cons.mp hchain).2 rfl (by simpa using hb)
    calc manhattan z b ≤ manhattan z z' + manhattan z' b := manhattan_triangle _ _ _
      _ ≤ 1 + ((z' :: rest).length - 1) := by omega
      _ = (z :: z' :: rest).length - 1 := by simp only [List.length_cons]; omega

theorem entryLt_first_le {a b : Nat × Coord} (h : entryLt a b = true) :
    a.1 ≤ b.1 := by
  unfold entryLt at h
  simp only [Bool.or_eq_true, Bool.and_eq_true, decide_eq_true_eq] at h
  rcases h with h | ⟨h, _⟩
  · exact h.le
  · exact h.le

theorem entryLt_false_first_le {a b : Nat × Coord} (h : entryLt a b = false) :
    b.1 ≤ a.1 := by
  unfold entryLt at h
  simp only [Bool.or_eq_false_iff, Bool.and_eq_false_iff, decide_eq_false_iff_not,
    not_lt] at h
  exact h.1

/-- The popped entry's priority is minimal over the whole queue. -/
theorem minEntry_le :
    ∀ (l : List (Nat × Coord)) (e : Nat × Coord),
      ∀ e' ∈ e :: l, (minEntry e l).1 ≤ e'.1
  | [], e, e', he' => by
    have h : e' = e := by simpa using he'
    rw [h]
    exact Nat.le_refl _
  | f :: rest, e, e', he' => by
    show (minEntry (if entryLt f e then f else e) rest).1 ≤ e'.1
    have hmin := minEntry_le rest (if entryLt f e then f else e)
    have hhead := hmin _ (List.mem_cons_self _ _)
    have hef : (minEntry (if entryLt f e then f else e) rest).1 ≤ e.1 ∧
        (minEntry (if entryLt f e then f else e) rest).1 ≤ f.1 := by
      by_cases hf : entryLt f e = true
      · rw [if_pos hf] at hhead ⊢
        exact ⟨le_trans hhead (entryLt_first_le hf), hhead⟩
      · rw [if_neg hf] at hhead ⊢
        exact ⟨hhead, le_trans hhead (entryLt_false_first_le (by simpa using hf))⟩
    rcases List.mem_cons.mp he' with h | h
    · rw [h]; exact hef.1
    · rcases List.mem_cons.mp h with h | h
      · rw [h]; exact hef.2
      · exact hmin e' (List.mem_cons_of_mem _ h)

theorem alookup_cons {β : Type} (k : Coord) (v : β) (l : List (Coord × β))
    (a : Coord) :
    alookup a ((k, v) :: l) = if a = k then some v else alookup a l := rfl

/-- Full case analysis of one neighbor relaxation: either the state is
unchanged (out of bounds, blocked, or no cost improvement) or the
neighbor is pushed with cost `cost(current) + 1` and the exact heuristic
priority, parent `current`. -/
theorem expandNeighbor_cases (endC : Coord) (obstacles : List Coord)
    (w h : Int) (current : Coord) (st : AState) (d : Int × Int) :
    (expandNeighbor endC obstacles w h current st d = st ∧
      (inBounds w h ⟨current.x + d.1, current.y + d.2⟩ = false ∨
       (obstacles.contains ⟨current.x + d.1, current.y + d.2⟩ = true ∧
         (⟨current.x + d.1, current.y + d.2⟩ : Coord) ≠ endC) ∨
       ∃ oldc, alookup ⟨current.x + d.1, current.y + d.2⟩ st.cost = some oldc ∧
         oldc ≤ (alookup current st.cost).getD 0 + 1)) ∨
    (inBounds w h ⟨current.x + d.1, current.y + d.2⟩ = true ∧
     (obstacles.contains ⟨current.x + d.1, current.y + d.2⟩ = false ∨
       (⟨current.x + d.1, current.y + d.2⟩ : Coord) = endC) ∧
     (∀ oldc, alookup ⟨current.x + d.1, current.y + d.2⟩ st.cost = some oldc →
       (alookup current st.cost).getD 0 + 1 < oldc) ∧
     expandNeighbor endC obstacles w h current st d
       = { pq := ((alookup current st.cost).getD 0 + 1
              + manhattan endC ⟨current.x + d.1, current.y + d.2⟩,
              ⟨current.x + d.1, current.y + d.2⟩) :: st.pq,
           came := (⟨current.x + d.1, current.y + d.2⟩, some current) :: st.came,
           cost := (⟨current.x + d.1, current.y + d.2⟩,
              (alookup current st.cost).getD 0 + 1) :: st.cost }) := by
  unfold expandNeighbor
  dsimp only
  split_ifs with h1 h2 h3
  · exact Or.inl ⟨rfl, Or.inl (by simpa using h1)⟩
  · refine Or.inl ⟨rfl, Or.inr (Or.inl ?_)⟩
    rcases Bool.and_eq_true_iff.mp h2 with ⟨ha, hb⟩
    exact ⟨ha, by simpa using hb⟩
  · refine Or.inr ⟨by simpa using h1, ?_, ?_, rfl⟩
    · by_cases hco :
        obstacles.contains ⟨current.x + d.1, current.y + d.2⟩ = true
      · refine Or.inr ?_
        by_contra hne
        refine h2 (by simp [hne]; simpa [List.elem_iff] using hco)
      · exact Or.inl (by simpa using hco)
    · intro oldc holdc
      rw [holdc] at h3
      simpa using h3
  · refine Or.inl ⟨rfl, Or.inr (Or.inr ?_)⟩
    rcases hl : alookup ⟨current.x + d.1, current.y + d.2⟩ st.cost with _ | oldc
    · rw [hl] at h3
      simp at h3
    · rw [hl] at h3
      refine ⟨oldc, rfl, by simpa using h3⟩

theorem contains_false_iff (l : List Coord) (c : Coord) :
    l.contains c = false ↔ c ∉ l := by
  constructor
  · intro hf hmem
    have : l.contains c = true := by simpa [List.elem_iff] using hmem
    rw [this] at hf
    cases hf
  · intro hnm
    rcases Bool.eq_false_or_eq_true (l.contains c) with ht | hf
    · exact absurd (by simpa [List.elem_iff] using ht) hnm
    · exact hf

/-- One neighbor relaxation preserves the weakened invariant, keeps the
current cell's cost, never raises any recorded cost, only grows the
queue, and leaves this neighbor (if it is a legal cell) with a recorded
cost of at most `cost(current) + 1`. -/
theorem expandNeighbor_BInvW (start endC : Coord) (obstacles : List Coord)
    (w h : Int) (current : Coord) (st : AState) (d : Int × Int)
    (hd : d ∈ astarDeltas) (v_cur : Nat)
    (hv : alookup current st.cost = some v_cur)
    (hinv : BInvW start endC obstacles w h current st) :
    BInvW start endC obstacles w h current
      (expandNeighbor endC obstacles w h current st d) ∧
    alookup current (expandNeighbor endC obstacles w h current st d).cost
      = some v_cur ∧
    (∀ k v, alookup k st.cost = some v →
      ∃ v', alookup k (expandNeighbor endC obstacles w h current st d).cost
        = some v' ∧ v' ≤ v) ∧
    st.pq ⊆ (expandNeighbor endC obstacles w h current st d).pq ∧
    (inBounds w h ⟨current.x + d.1, current.y + d.2⟩ = true →
      (obstacles.contains ⟨current.x + d.1, current.y + d.2⟩ = false ∨
        (⟨current.x + d.1, current.y + d.2⟩ : Coord) = endC) →
      ∃ v', alookup ⟨current.x + d.1, current.y + d.2⟩
          (expandNeighbor endC obstacles w h current st d).cost = some v' ∧
        v' ≤ v_cur + 1) := by
  rcases expandNeighbor_cases endC obstacles w h current st d with
    ⟨heq, hwhy⟩ | ⟨hb, hobs, himp, heq⟩
  · rw [heq]
    refine ⟨hinv, hv, fun k v hk => ⟨v, hk, le_refl v⟩, fun x hx => hx, ?_⟩
    intro hb' hobs'
    rcases hwhy with hf | ⟨hc, hne⟩ | ⟨oldc, holdc, hle⟩
    · rw [hb'] at hf; cases hf
    · rcases hobs' with h' | h'
      · rw [hc] at h'; cases h'
      · exact absurd h' hne
    · exact ⟨oldc, holdc, by rw [hv] at hle; simpa using hle⟩
  · simp only [hv, Option.getD_some] at himp heq
    have hne_cur : (⟨current.x + d.1, current.y + d.2⟩ : Coord) ≠ current :=
      delta_ne current d hd
    have hne_start : (⟨current.x + d.1, current.y + d.2⟩ : Coord) ≠ start := by
      intro hh
      have h0 : alookup ⟨current.x + d.1, current.y + d.2⟩ st.cost = some 0 := by
        rw [hh]; exact hinv.startCost
      exact absurd (himp 0 h0) (by omega)
    have hmono : ∀ k v, alookup k st.cost = some v →
        ∃ v', alookup k (expandNeighbor endC obstacles w h current st d).cost
          = some v' ∧ v' ≤ v := by
      intro k v hk
      rw [heq]
      by_cases hkn : k = (⟨current.x + d.1, current.y + d.2⟩ : Coord)
      · refine ⟨v_cur + 1, ?_, ?_⟩
        · rw [alookup_cons, if_pos hkn]
        · rw [hkn] at hk
          exact (himp v hk).le
      · exact ⟨v, by rw [alookup_cons, if_neg hkn]; exact hk, le_refl v⟩
    refine ⟨?_, ?_, hmono, ?_, ?_⟩
    · constructor
      · intro k v hk
        rw [heq, alookup_cons] at hk
        split_ifs at hk with hkn
        · refine Or.inr ⟨hkn ▸ hb, ?_⟩
          rcases hobs with hc | hc
          · exact Or.inl (hkn ▸ (contains_false_iff obstacles _).mp hc)
          · exact Or.inr (hkn ▸ hc)
        · exact hinv.keyValid k v hk
      · rw [heq, alookup_cons,
          if_neg (fun hh => hne_start (hh.symm : _))]
        exact hinv.startCost
      · rw [heq, alookup_cons,
          if_neg (fun hh => hne_start (hh.symm : _))]
        exact hinv.startCame
      · intro k
        rw [heq]
        by_cases hkn : k = (⟨current.x + d.1, current.y + d.2⟩ : Coord)
        · simp [alookup_cons, hkn]
        · rw [alookup_cons, if_neg hkn, alookup_cons, if_neg hkn]
          exact hinv.domSync k
      · intro k hk
        rw [heq, alookup_cons] at hk
        split_ifs at hk with hkn
        · cases hk
        · exact hinv.cameStart k hk
      · intro k c hk
        rw [heq, alookup_cons] at hk
        split_ifs at hk with hkn
        · injection hk with hk
          injection hk with hk
          refine ⟨?_, v_cur, v_cur + 1, ?_, ?_, ?_⟩
          · rw [← hk, hkn]
            exact delta_manhattan current d hd
          · rw [heq, alookup_cons, ← hk,
              if_neg (fun hh => hne_cur (hh.symm : _))]
            exact hv
          · rw [heq, alookup_cons, if_pos hkn]
          · omega
        · obtain ⟨hadj, vc, vk, hvc, hvk, hlt⟩ := hinv.cameParent k c hk
          obtain ⟨vc', hvc', hvcle⟩ := hmono c vc hvc
          refine ⟨hadj, vc', vk, hvc', ?_, by omega⟩
          rw [heq, alookup_cons, if_neg hkn]
          exact hvk
      · intro k v hk
        rw [heq] at hk ⊢
        simp only [List.length_cons]
        rw [alookup_cons] at hk
        split_ifs at hk with hkn
        · injection hk with hk
          have := hinv.costBound current v_cur hv
          omega
        · have := hinv.costBound k v hk
          omega
      · intro k v hk
        rw [heq, alookup_cons] at hk
        split_ifs at hk with hkn
        · injection hk with hk
          refine Or.inr (Or.inl ?_)
          rw [heq]
          subst hkn
          rw [← hk]
          exact List.mem_cons_self _ _
        · rcases hinv.frontierW k v hk with hc | hc | hc
          · exact Or.inl hc
          · refine Or.inr (Or.inl ?_)
            rw [heq]
            exact List.mem_cons_of_mem _ hc
          · refine Or.inr (Or.inr ?_)
            intro d' hd' hb' hobs'
            obtain ⟨v', hv', hle'⟩ := hc d' hd' hb' hobs'
            obtain ⟨v'', hv'', hle''⟩ := hmono _ v' hv'
            exact ⟨v'', hv'', by omega⟩
      · intro e he
        rw [heq] at he
        rcases List.mem_cons.mp he with he' | he'
        · subst he'
          refine ⟨v_cur + 1, ?_, le_refl _⟩
          rw [heq, alookup_cons, if_pos rfl]
        · obtain ⟨v, hv', hle⟩ := hinv.prioLB e he'
          obtain ⟨v', hv'', hle'⟩ := hmono _ v hv'
          exact ⟨v', hv'', by omega⟩
    · rw [heq, alookup_cons, if_neg (fun hh => hne_cur (hh.symm : _))]
      exact hv
    · rw [heq]
      exact fun x hx => List.mem_cons_of_mem _ hx
    · intro _ _
      refine ⟨v_cur + 1, ?_, le_refl _⟩
      rw [heq, alookup_cons, if_pos rfl]

/-- Folding the relaxation over a set of deltas preserves the weakened
invariant and leaves every processed legal neighbor with cost at most
`cost(current) + 1`. -/
theorem foldl_expand_BInvW (start endC : Coord) (obstacles : List Coord)
    (w h : Int) (current : Coord) (v_cur : Nat) :
    ∀ (ds : List (Int × Int)), (∀ d ∈ ds, d ∈ astarDeltas) →
    ∀ (st : AState), BInvW start endC obstacles w h current st →
      alookup current st.cost = some v_cur →
      BInvW start endC obstacles w h current
        (ds.foldl (expandNeighbor endC obstacles w h current) st) ∧
      alookup current
        (ds.foldl (expandNeighbor endC obstacles w h current) st).cost
        = some v_cur ∧
      (∀ k v, alookup k st.cost = some v →
        ∃ v', alookup k
          (ds.foldl (expandNeighbor endC obstacles w h current) st).cost
          = some v' ∧ v' ≤ v) ∧
      st.pq ⊆ (ds.foldl (expandNeighbor endC obstacles w h current) st).pq ∧
      (∀ d ∈ ds,
        inBounds w h ⟨current.x + d.1, current.y + d.2⟩ = true →
        (obstacles.contains ⟨current.x + d.1, current.y + d.2⟩ = false ∨
          (⟨current.x + d.1, current.y + d.2⟩ : Coord) = endC) →
        ∃ v', alookup ⟨current.x + d.1, current.y + d.2⟩
            (ds.foldl (expandNeighbor endC obstacles w h current) st).cost
            = some v' ∧ v' ≤ v_cur + 1)
  | [], _, st, hinv, hv => ⟨hinv, hv, fun k v hk => ⟨v, hk, le_refl v⟩,
      fun x hx => hx, fun d hd => absurd hd (List.not_mem_nil d)⟩
  | d :: rest, hds, st, hinv, hv => by
    obtain ⟨hinv1, hv1, hmono1, hpq1, hexp1⟩ :=
      expandNeighbor_BInvW start endC obstacles w h current st d
        (hds d (List.mem_cons_self _ _)) v_cur hv hinv
    obtain ⟨hinv2, hv2, hmono2, hpq2, hexp2⟩ :=
      foldl_expand_BInvW start endC obstacles w h current v_cur rest
        (fun d' hd' => hds d' (List.mem_cons_of_mem _ hd'))
        (expandNeighbor endC obstacles w h current st d) hinv1 hv1
    refine ⟨hinv2, hv2, ?_, ?_, ?_⟩
    · intro k v hk
      obtain ⟨v', hv', hle'⟩ := hmono1 k v hk
      obtain ⟨v'', hv'', hle''⟩ := hmono2 k v' hv'
      exact ⟨v'', hv'', le_trans hle'' hle'⟩
    · exact fun x hx => hpq2 (hpq1 hx)
    · intro d' hd' hb' hobs'
      rcases List.mem_cons.mp hd' with he | hm
      · subst he
        obtain ⟨v', hv', hle'⟩ := hexp1 hb' hobs'
        obtain ⟨v'', hv'', hle''⟩ := hmono2 _ v' hv'
        exact ⟨v'', hv'', le_trans hle'' hle'⟩
      · exact hexp2 d' hm hb' hobs'

/-- Popping the minimal entry turns the invariant into its weakened form
for the popped cell, which also certainly has a recorded cost. -/
theorem pop_BInvW (start endC : Coord) (obstacles : List Coord) (w h : Int)
    (st : AState) (e : Nat × Coord) (rest : List (Nat × Coord))
    (hpq : st.pq = e :: rest)
    (hinv : BInv start endC obstacles w h st) :
    BInvW start endC obstacles w h (minEntry e rest).2
      { st with pq := (e :: rest).erase (minEntry e rest) } ∧
    ∃ v_cur, alookup (minEntry e rest).2 st.cost = some v_cur := by
  have hmem : minEntry e rest ∈ st.pq := hpq ▸ minEntry_mem rest e
  obtain ⟨v_cur, hv_cur, _⟩ := hinv.prioLB _ hmem
  refine ⟨⟨hinv.keyValid, hinv.startCost, hinv.startCame, hinv.domSync,
    hinv.cameStart, hinv.cameParent, hinv.costBound, ?_, ?_⟩, v_cur, hv_cur⟩
  · intro k v hk
    rcases hinv.frontier k v hk with hc | hc
    · by_cases hkc : k = (minEntry e rest).2
      · exact Or.inl hkc
      · refine Or.inr (Or.inl ?_)
        show (v + manhattan endC k, k) ∈ (e :: rest).erase (minEntry e rest)
        refine (List.mem_erase_of_ne ?_).mpr (hpq ▸ hc)
        intro hcontra
        exact hkc (congrArg Prod.snd hcontra)
    · exact Or.inr (Or.inr hc)
  · intro e' he'
    exact hinv.prioLB e' (hpq ▸ List.erase_subset _ _ he')

/-- After a full four-delta expansion of the popped cell, the weakened
invariant strengthens back to the full one. -/
theorem BInvW_to_BInv (start endC : Coord) (obstacles : List Coord)
    (w h : Int) (current : Coord) (v_cur : Nat) (st : AState)
    (hinv : BInvW start endC obstacles w h current st)
    (hv : alookup current st.cost = some v_cur)
    (hexp : ∀ d ∈ astarDeltas,
      inBounds w h ⟨current.x + d.1, current.y + d.2⟩ = true →
      (obstacles.contains ⟨current.x + d.1, current.y + d.2⟩ = false ∨
        (⟨current.x + d.1, current.y + d.2⟩ : Coord) = endC) →
      ∃ v', alookup ⟨current.x + d.1, current.y + d.2⟩ st.cost = some v' ∧
        v' ≤ v_cur + 1) :
    BInv start endC obstacles w h st := by
  refine ⟨hinv.keyValid, hinv.startCost, hinv.startCame, hinv.domSync,
    hinv.cameStart, hinv.cameParent, hinv.costBound, ?_, hinv.prioLB⟩
  intro k v hk
  rcases hinv.frontierW k v hk with hc | hc | hc
  · subst hc
    have hvv : v = v_cur := by
      rw [hv] at hk
      exact (Option.some.inj hk).symm
    subst hvv
    exact Or.inr hexp
  · exact Or.inl hc
  · exact Or.inr hc

theorem manhattan_comm (a b : Coord) : manhattan a b = manhattan b a := by
  unfold manhattan
  omega

/-- The admissibility argument: at the moment the goal's entry is the
minimal entry of the queue, the goal's recorded cost is at most the step
count of every valid path, because along any such path the first cell
whose cost certificate runs out still holds a queue entry whose priority
(cost so far plus Manhattan-to-goal) undercuts the popped priority. -/
theorem suffix_cost_bound (start endC : Coord) (obstacles : List Coord)
    (w h : Int) (st : AState)
    (hinv : BInv start endC obstacles w h st)
    (m : Nat × Coord) (hm : m ∈ st.pq)
    (hmin : ∀ e' ∈ st.pq, m.1 ≤ e'.1) :
    ∀ (s : List Coord) (z : Coord) (vz j : Nat),
      s.head? = some z → s.getLast? = some m.2 →
      List.Chain' (fun a b => manhattan a b = 1) s →
      (∀ c ∈ s.tail, inBounds w h c = true ∧ (c ∉ obstacles ∨ c = endC)) →
      alookup z st.cost = some vz → vz ≤ j →
      ∃ ve, alookup m.2 st.cost = some ve ∧ ve ≤ j + (s.length - 1)
  | [], z, vz, j, hhead, _, _, _, _, _ => by simp at hhead
  | [z'], z, vz, j, hhead, hlast, _, _, hvz, hj => by
    have h1 : z' = z := by simpa using hhead
    have h2 : z' = m.2 := by simpa using hlast
    refine ⟨vz, ?_, by simpa using hj⟩
    rw [← h2, h1]
    exact hvz
  | z₁ :: z₂ :: rest, z, vz, j, hhead, hlast, hchain, htail, hvz, hj => by
    have h1 : z₁ = z := by simpa using hhead
    subst h1
    rcases hinv.frontier z₁ vz hvz with hc | hc
    · -- z still has its exact entry: the popped priority undercuts it
      have hple : m.1 ≤ vz + manhattan endC z₁ := hmin _ hc
      obtain ⟨ve, hve, hvele⟩ := hinv.prioLB m hm
      have hman : manhattan z₁ m.2 ≤ (z₁ :: z₂ :: rest).length - 1 :=
        chain_manhattan_le _ _ _ hchain rfl hlast
      have htri : manhattan endC z₁ ≤ manhattan endC m.2 + manhattan m.2 z₁ :=
        manhattan_triangle _ _ _
      have hcomm : manhattan m.2 z₁ = manhattan z₁ m.2 := manhattan_comm _ _
      refine ⟨ve, hve, ?_⟩
      omega
    · -- z has relaxed all its neighbors, in particular the next path cell
      have hadj : manhattan z₁ z₂ = 1 := (List.chain'_cons.mp hchain).1
      obtain ⟨d, hd, hz₂⟩ := adjacent_delta z₁ z₂ hadj
      obtain ⟨hb2, hobs2⟩ := htail z₂ (List.mem_cons_self _ _)
      have hobs2' : obstacles.contains z₂ = false ∨ z₂ = endC := by
        rcases hobs2 with hn | he
        · exact Or.inl ((contains_false_iff obstacles z₂).mpr hn)
        · exact Or.inr he
      obtain ⟨v₂, hv₂, hle₂⟩ := hc d hd (hz₂ ▸ hb2) (by rw [← hz₂]; exact hobs2')
      rw [← hz₂] at hv₂
      obtain ⟨ve, hve, hvele⟩ :=
        suffix_cost_bound start endC obstacles w h st hinv m hm hmin
          (z₂ :: rest) z₂ v₂ (j + 1) rfl (by simpa using hlast)
          (List.chain'_cons.mp hchain).2
          (fun c hc' => htail c (List.mem_cons_of_mem _ hc'))
          hv₂ (by omega)
      refine ⟨ve, hve, ?_⟩
      simp only [List.length_cons] at hvele ⊢
      omega

theorem reconstruct_none (came : List (Coord × Option Coord)) :
    ∀ (fuel : Nat) (acc : List Coord), reconstruct came fuel none acc = acc
  | 0, _ => rfl
  | _ + 1, _ => rfl

/-- Following the parent chain from a discovered cell produces a valid
unit-step walk from the start whose length is bounded by the cell's
recorded cost plus one; the chain's interior cells all carry positive
costs (so none of them is the start). -/
theorem reconstruct_spec (start endC : Coord) (obstacles : List Coord)
    (w h : Int) (st : AState) (hinv : BInv start endC obstacles w h st) :
    ∀ (fuel : Nat) (c : Coord) (vc : Nat) (acc : List Coord),
      alookup c st.cost = some vc → vc + 2 ≤ fuel →
      ∃ q : List Coord,
        reconstruct st.came fuel (some c) acc = q ++ acc ∧
        q.head? = some start ∧ q.getLast? = some c ∧
        List.Chain' (fun a b => manhattan a b = 1) q ∧
        q.length ≤ vc + 1 ∧
        (∀ x ∈ q.tail, ∃ vx, alookup x st.cost = some vx ∧ 0 < vx)
  | 0, c, vc, acc, _, hfuel => by omega
  | fuel + 1, c, vc, acc, hvc, hfuel => by
    have hsome : (alookup c st.came).isSome :=
      (hinv.domSync c).mpr (by rw [hvc]; rfl)
    obtain ⟨pk, hpk⟩ := Option.isSome_iff_exists.mp hsome
    have hstep : reconstruct st.came (fuel + 1) (some c) acc
        = reconstruct st.came fuel pk (c :: acc) := by
      show reconstruct st.came fuel ((alookup c st.came).getD none) (c :: acc)
        = reconstruct st.came fuel pk (c :: acc)
      rw [hpk, Option.getD_some]
    rcases pk with _ | c'
    · -- parent none: this is the start cell
      have hcs : c = start := hinv.cameStart c hpk
      refine ⟨[c], ?_, by simp [hcs], rfl, List.chain'_singleton c, by simp, ?_⟩
      · rw [hstep, reconstruct_none]
        rfl
      · intro x hx
        simp at hx
    · obtain ⟨hadj, vc'', vk, hvc'', hvk, hlt⟩ := hinv.cameParent c c' hpk
      have hvkvc : vk = vc := by
        rw [hvc] at hvk
        exact (Option.some.inj hvk).symm
      subst hvkvc
      obtain ⟨q', heq', hhead', hlast', hchain', hlen', htail'⟩ :=
        reconstruct_spec start endC obstacles w h st hinv fuel c' vc''
          (c :: acc) hvc'' (by omega)
      rcases q' with _ | ⟨qh, qt⟩
      · simp at hhead'
      · refine ⟨(qh :: qt) ++ [c], ?_, by simpa using hhead', ?_, ?_, ?_, ?_⟩
        · rw [hstep, heq']
          simp [List.append_assoc]
        · show ((qh :: qt) ++ [c]).getLast? = some c
          exact List.getLast?_concat _
        · refine List.Chain'.append hchain' (List.chain'_singleton c) ?_
          intro x hx y hy
          have hx' : c' = x := by
            rw [hlast'] at hx
            simpa using hx
          have hy' : c = y := by simpa using hy
          rw [← hx', ← hy']
          exact hadj
        · simp only [List.length_append, List.length_singleton]
          simp only [List.length_cons] at hlen' ⊢
          omega
        · intro x hx
          simp only [List.cons_append, List.tail_cons] at hx
          rcases List.mem_append.mp hx with hx' | hx'
          · exact htail' x (by simpa using hx')
          · have : x = c := by simpa using hx'
            rw [this]
            exact ⟨vk, hvc, by omega⟩

/-- Under the invariant, any path the loop returns is a valid path from
start to goal and no valid path is shorter. -/
theorem astarLoop_shortest (start endC : Coord) (obstacles : List Coord)
    (w h : Int) :
    ∀ (fuel : Nat) (st : AState) (p : List Coord),
      BInv start endC obstacles w h st →
      astarLoop endC obstacles w h fuel st = some (some p) →
      ValidPath start endC endC obstacles w h p ∧
      ∀ q, ValidPath start endC endC obstacles w h q → p.length ≤ q.length
  | 0, st, p, _, heq => by simp [astarLoop] at heq
  | fuel + 1, st, p, hinv, heq => by
    rcases hpq : st.pq with _ | ⟨e, rest⟩
    · simp [astarLoop, hpq] at heq
    · simp only [astarLoop, hpq] at heq
      by_cases hcur : (minEntry e rest).2 = endC
      · rw [if_pos hcur] at heq
        injection heq with heq
        injection heq with heq
        have hmem : minEntry e rest ∈ st.pq := hpq ▸ minEntry_mem rest e
        obtain ⟨ve, hve0, _⟩ := hinv.prioLB _ hmem
        rw [hcur] at hve0
        have hbound := hinv.costBound endC ve hve0
        obtain ⟨q0, heq0, hhead0, hlast0, hchain0, hlen0, htail0⟩ :=
          reconstruct_spec start endC obstacles w h st hinv
            (st.cost.length + 1) endC ve [] hve0 (by omega)
        rw [hcur, heq0] at heq
        have hp0 : p = q0 := by rw [← heq]; simp
        subst hp0
        refine ⟨⟨hhead0, hlast0, hchain0, ?_⟩, ?_⟩
        · intro x hx
          obtain ⟨vx, hvx, hposx⟩ := htail0 x hx
          rcases hinv.keyValid x vx hvx with hxs | hxv
          · exfalso
            rw [hxs, hinv.startCost] at hvx
            have : vx = 0 := (Option.some.inj hvx).symm
            omega
          · exact hxv
        · rintro q ⟨hqh, hql, hqc, hqt⟩
          obtain ⟨ve', hve', hvele⟩ :=
            suffix_cost_bound start endC obstacles w h st hinv
              (minEntry e rest) hmem
              (fun e' he' => minEntry_le rest e e' (hpq ▸ he'))
              q start 0 0 hqh (by rw [hcur]; exact hql) hqc hqt
              hinv.startCost (le_refl 0)
          have hvee : ve' = ve := by
            rw [hcur, hve0] at hve'
            exact (Option.some.inj hve').symm
          have hq1 : 1 ≤ q.length := by
            rcases q with _ | ⟨a, b⟩
            · simp at hqh
            · simp
          omega
      · rw [if_neg hcur] at heq
        obtain ⟨hinvW, v_cur, hv_cur⟩ :=
          pop_BInvW start endC obstacles w h st e rest hpq hinv
        obtain ⟨hinvW', hv', _, _, hexp'⟩ :=
          foldl_expand_BInvW start endC obstacles w h (minEntry e rest).2
            v_cur astarDeltas (fun _ hd => hd) _ hinvW hv_cur
        exact astarLoop_shortest start endC obstacles w h fuel _ p
          (BInvW_to_BInv start endC obstacles w h (minEntry e rest).2 v_cur _
            hinvW' hv' hexp') heq

/-- The invariant holds for the state right after the forced first pop of
the start entry, before the start's neighbors are expanded. -/
theorem BInvW_init (start endC : Coord) (obstacles : List Coord) (w h : Int) :
    BInvW start endC obstacles w h start
      { pq := [], came := [(start, none)], cost := [(start, 0)] } := by
  refine ⟨?_, ?_, ?_, ?_, ?_, ?_, ?_, ?_, ?_⟩
  · intro k v hk
    rw [alookup_cons] at hk
    split_ifs at hk with hks
    · exact Or.inl hks
    · cases hk
  · simp [alookup]
  · simp [alookup]
  · intro k
    by_cases hks : k = start
    · simp [alookup, hks]
    · simp [alookup, hks]
  · intro k hk
    rw [alookup_cons] at hk
    split_ifs at hk with hks
    · exact hks
    · cases hk
  · intro k c hk
    rw [alookup_cons] at hk
    split_ifs at hk with hks
    · cases Option.some.inj hk
    · cases hk
  · intro k v hk
    rw [alookup_cons] at hk
    split_ifs at hk with hks
    · simp [(Option.some.inj hk).symm]
    · cases hk
  · intro k v hk
    rw [alookup_cons] at hk
    split_ifs at hk with hks
    · exact Or.inl hks
    · cases hk
  · intro e he
    simp at he

/-- Part A of the shortest-path claim: whatever `a_star` returns is a
valid path, and no valid path is shorter. -/
theorem a_star_partA (start endC : Coord) (obstacles : List Coord)
    (w h : Int) (p : List Coord)
    (hrun : a_star start endC obstacles w h = some (some p)) :
    ValidPath start endC endC obstacles w h p ∧
    ∀ q, ValidPath start endC endC obstacles w h q → p.length ≤ q.length := by
  by_cases hse : start = endC
  · subst hse
    have hval : a_star start start obstacles w h = some (some [start]) :=
      astarLoop_start_goal start obstacles w h _
    rw [hval] at hrun
    injection hrun with hrun
    injection hrun with hrun
    refine ⟨?_, ?_⟩
    · rw [← hrun]
      exact ⟨rfl, rfl, List.chain'_singleton start, by simp⟩
    · rintro q ⟨hqh, _, _, _⟩
      rw [← hrun]
      rcases q with _ | ⟨a, b⟩
      · simp at hqh
      · simp
  · have hpeel : a_star start endC obstacles w h
        = astarLoop endC obstacles w h (3 * (w.toNat * h.toNat + 2) + 3)
          (astarDeltas.foldl (expandNeighbor endC obstacles w h start)
            { pq := [], came := [(start, none)], cost := [(start, 0)] }) := by
      show astarLoop endC obstacles w h (3 * (w.toNat * h.toNat + 2) + 3 + 1)
          { pq := [(0, start)], came := [(start, none)], cost := [(start, 0)] }
        = _
      simp only [astarLoop, minEntry, if_neg hse, List.erase_cons_head]
    rw [hpeel] at hrun
    obtain ⟨hinvW', hv', _, _, hexp'⟩ :=
      foldl_expand_BInvW start endC obstacles w h start 0 astarDeltas
        (fun _ hd => hd) _ (BInvW_init start endC obstacles w h)
        (by simp [alookup])
    exact astarLoop_shortest start endC obstacles w h _ _ p
      (BInvW_to_BInv start endC obstacles w h start 0 _ hinvW' hv' hexp') hrun

theorem expandNeighbor_GInv (endC : Coord) (obstacles : List Coord)
    (w h : Int) (current : Coord) (st : AState) (d : Int × Int)
    (hg : GInv endC st) :
    GInv endC (expandNeighbor endC obstacles w h current st d) := by
  rcases expandNeighbor_cases endC obstacles w h current st d with
    ⟨heq, _⟩ | ⟨_, _, _, heq⟩
  · rw [heq]; exact hg
  · intro v hv
    rw [heq] at hv ⊢
    rw [alookup_cons] at hv
    split_ifs at hv with hke
    · injection hv with hv
      rw [← hke, ← hv]
      exact List.mem_cons_self _ _
    · exact List.mem_cons_of_mem _ (hg v hv)

theorem foldl_expand_GInv (endC : Coord) (obstacles : List Coord)
    (w h : Int) (current : Coord) :
    ∀ (ds : List (Int × Int)) (st : AState), GInv endC st →
      GInv endC (ds.foldl (expandNeighbor endC obstacles w h current) st)
  | [], _, hg => hg
  | d :: rest, st, hg =>
    foldl_expand_GInv endC obstacles w h current rest _
      (expandNeighbor_GInv endC obstacles w h current st d hg)

theorem pop_GInv (endC : Coord) (st : AState) (e : Nat × Coord)
    (rest : List (Nat × Coord)) (hpq : st.pq = e :: rest)
    (hne : (minEntry e rest).2 ≠ endC) (hg : GInv endC st) :
    GInv endC { st with pq := (e :: rest).erase (minEntry e rest) } := by
  intro v hv
  show (v + manhattan endC endC, endC) ∈ (e :: rest).erase (minEntry e rest)
  refine (List.mem_erase_of_ne ?_).mpr (hpq ▸ hg v hv)
  intro hcontra
  exact hne (congrArg Prod.snd hcontra).symm

/-- If the queue empties while a valid path to a discovered cell's
remaining suffix exists, we reach a contradiction: walking the path,
every cell gets discovered, and a discovered goal keeps a queue entry. -/
theorem pq_empty_no_path (start endC : Coord) (obstacles : List Coord)
    (w h : Int) (st : AState)
    (hinv : BInv start endC obstacles w h st) (hg : GInv endC st)
    (hpq : st.pq = []) :
    ∀ (s : List Coord) (z : Coord) (vz : Nat),
      s.head? = some z → s.getLast? = some endC →
      List.Chain' (fun a b => manhattan a b = 1) s →
      (∀ c ∈ s.tail, inBounds w h c = true ∧ (c ∉ obstacles ∨ c = endC)) →
      alookup z st.cost = some vz → False
  | [], z, vz, hhead, _, _, _, _ => by simp at hhead
  | [z'], z, vz, hhead, hlast, _, _, hvz => by
    have h1 : z' = z := by simpa using hhead
    have h2 : z' = endC := by simpa using hlast
    have := hg vz (by rw [← h2, h1]; exact hvz)
    rw [hpq] at this
    simp at this
  | z₁ :: z₂ :: rest, z, vz, hhead, hlast, hchain, htail, hvz => by
    have h1 : z₁ = z := by simpa using hhead
    subst h1
    rcases hinv.frontier z₁ vz hvz with hc | hc
    · rw [hpq] at hc
      simp at hc
    · have hadj : manhattan z₁ z₂ = 1 := (List.chain'_cons.mp hchain).1
      obtain ⟨d, hd, hz₂⟩ := adjacent_delta z₁ z₂ hadj
      obtain ⟨hb2, hobs2⟩ := htail z₂ (List.mem_cons_self _ _)
      have hobs2' : obstacles.contains z₂ = false ∨ z₂ = endC := by
        rcases hobs2 with hn | he
        · exact Or.inl ((contains_false_iff obstacles z₂).mpr hn)
        · exact Or.inr he
      obtain ⟨v₂, hv₂, _⟩ := hc d hd (hz₂ ▸ hb2) (by rw [← hz₂]; exact hobs2')
      rw [← hz₂] at hv₂
      exact pq_empty_no_path start endC obstacles w h st hinv hg hpq
        (z₂ :: rest) z₂ v₂ rfl (by simpa using hlast)
        (List.chain'_cons.mp hchain).2
        (fun c hc' => htail c (List.mem_cons_of_mem _ hc')) hv₂

/-- Prepending one unit step to a unit-step chain. -/
theorem chain_prepend (a a' b : Coord) (q' : List Coord) (n : Nat)
    (hstep : manhattan a a' = 1) (hh : q'.head? = some a')
    (hl : q'.getLast? = some b)
    (hc : List.Chain' (fun x y => manhattan x y = 1) q')
    (hlen : q'.length = n + 1) :
    (a :: q').head? = some a ∧ (a :: q').getLast? = some b ∧
    List.Chain' (fun x y => manhattan x y = 1) (a :: q') ∧
    (a :: q').length = n + 2 := by
  rcases q' with _ | ⟨x, t⟩
  · simp at hh
  · have hx : x = a' := by simpa using hh
    refine ⟨rfl, by simpa using hl, ?_, by simpa using hlen⟩
    exact List.chain'_cons.mpr ⟨hx ▸ hstep, hc⟩

/-- Between any two in-bounds cells there is a unit-step staircase path
of length exactly the Manhattan distance plus one, all of whose cells
are in bounds. -/
theorem staircase (w h : Int) :
    ∀ (n : Nat) (a b : Coord), manhattan a b = n →
      inBounds w h a = true → inBounds w h b = true →
      ∃ q : List Coord, q.head? = some a ∧ q.getLast? = some b ∧
        List.Chain' (fun x y => manhattan x y = 1) q ∧
        q.length = n + 1 ∧ ∀ c ∈ q, inBounds w h c = true
  | 0, a, b, hm, ha, _ => by
    have hab : a = b := by
      rcases a with ⟨ax, ay⟩
      rcases b with ⟨bx, by'⟩
      unfold manhattan at hm
      simp only [Coord.mk.injEq]
      simp only at hm
      omega
    subst hab
    exact ⟨[a], rfl, rfl, List.chain'_singleton a, rfl,
      fun c hc => by rw [List.eq_of_mem_singleton hc]; exact ha⟩
  | n + 1, a, b, hm, ha, hb => by
    have ha' := ha
    have hb' := hb
    simp only [inBounds, Bool.and_eq_true, decide_eq_true_eq] at ha' hb'
    by_cases hx1 : a.x < b.x
    · have hstep : manhattan a ⟨a.x + 1, a.y⟩ = 1 := by simp [manhattan]
      have hm' : manhattan (⟨a.x + 1, a.y⟩ : Coord) b = n := by
        unfold manhattan at hm ⊢
        simp only at *
        omega
      have hin : inBounds w h ⟨a.x + 1, a.y⟩ = true := by
        simp only [inBounds, Bool.and_eq_true, decide_eq_true_eq]
        refine ⟨⟨⟨by omega, by omega⟩, by omega⟩, by omega⟩
      obtain ⟨q', hh, hl, hc, hlen, hcell⟩ :=
        staircase w h n ⟨a.x + 1, a.y⟩ b hm' hin hb
      obtain ⟨h1, h2, h3, h4⟩ := chain_prepend a _ b q' n hstep hh hl hc hlen
      exact ⟨a :: q', h1, h2, h3, h4, fun c hc' => by
        rcases List.mem_cons.mp hc' with rfl | hmem
        · exact ha
        · exact hcell c hmem⟩
    · by_cases hx2 : b.x < a.x
      · have hstep : manhattan a ⟨a.x - 1, a.y⟩ = 1 := by simp [manhattan]
        have hm' : manhattan (⟨a.x - 1, a.y⟩ : Coord) b = n := by
          unfold manhattan at hm ⊢
          simp only at *
          omega
        have hin : inBounds w h ⟨a.x - 1, a.y⟩ = true := by
          simp only [inBounds, Bool.and_eq_true, decide_eq_true_eq]
          refine ⟨⟨⟨by omega, by omega⟩, by omega⟩, by omega⟩
        obtain ⟨q', hh, hl, hc, hlen, hcell⟩ :=
          staircase w h n ⟨a.x - 1, a.y⟩ b hm' hin hb
        obtain ⟨h1, h2, h3, h4⟩ := chain_prepend a _ b q' n hstep hh hl hc hlen
        exact ⟨a :: q', h1, h2, h3, h4, fun c hc' => by
          rcases List.mem_cons.mp hc' with rfl | hmem
          · exact ha
          · exact hcell c hmem⟩
      · by_cases hy1 : a.y < b.y
        · have hstep : manhattan a ⟨a.x, a.y + 1⟩ = 1 := by simp [manhattan]
          have hm' : manhattan (⟨a.x, a.y + 1⟩ : Coord) b = n := by
            unfold manhattan at hm ⊢
            simp only at *
            omega
          have hin : inBounds w h ⟨a.x, a.y + 1⟩ = true := by
            simp only [inBounds, Bool.and_eq_true, decide_eq_true_eq]
            refine ⟨⟨⟨by omega, by omega⟩, by omega⟩, by omega⟩
          obtain ⟨q', hh, hl, hc, hlen, hcell⟩ :=
            staircase w h n ⟨a.x, a.y + 1⟩ b hm' hin hb
          obtain ⟨h1, h2, h3, h4⟩ := chain_prepend a _ b q' n hstep hh hl hc hlen
          exact ⟨a :: q', h1, h2, h3, h4, fun c hc' => by
            rcases List.mem_cons.mp hc' with rfl | hmem
            · exact ha
            · exact hcell c hmem⟩
        · have hy2 : b.y < a.y := by
            unfold manhattan at hm
            omega
          have hstep : manhattan a ⟨a.x, a.y - 1⟩ = 1 := by simp [manhattan]
          have hm' : manhattan (⟨a.x, a.y - 1⟩ : Coord) b = n := by
            unfold manhattan at hm ⊢
            simp only at *
            omega
          have hin : inBounds w h ⟨a.x, a.y - 1⟩ = true := by
            simp only [inBounds, Bool.and_eq_true, decide_eq_true_eq]
            refine ⟨⟨⟨by omega, by omega⟩, by omega⟩, by omega⟩
          obtain ⟨q', hh, hl, hc, hlen, hcell⟩ :=
            staircase w h n ⟨a.x, a.y - 1⟩ b hm' hin hb
          obtain ⟨h1, h2, h3, h4⟩ := chain_prepend a _ b q' n hstep hh hl hc hlen
          exact ⟨a :: q', h1, h2, h3, h4, fun c hc' => by
            rcases List.mem_cons.mp hc' with rfl | hmem
            · exact ha
            · exact hcell c hmem⟩

/-- Dict lookup returns the value of the newest binding of the key:
the head of the bindings filtered to that key. -/
theorem alookup_filter_head {β : Type} (k : Coord) :
    ∀ l : List (Coord × β),
      alookup k l
        = ((l.filter (fun pr => decide (pr.1 = k))).head?).map Prod.snd
  | [] => rfl
  | (k', v) :: rest => by
    rw [alookup_cons]
    by_cases hk : k = k'
    · have hd : (decide ((k', v).1 = k)) = true := by simp [hk]
      rw [if_pos hk, List.filter_cons, if_pos hd]
      rfl
    · have hd : (decide ((k', v).1 = k)) = false := by
        simp only [decide_eq_false_iff_not]
        exact fun hcontra => hk hcontra.symm
      rw [if_neg hk, List.filter_cons, if_neg (by simp [hd]),
        alookup_filter_head k rest]

/-- One neighbor relaxation preserves the counting invariant when the
popped cell's cost is exactly its Manhattan distance from the start, and
keeps the popped cell's cost binding. -/
theorem expandNeighbor_EInv (start endC : Coord) (obstacles : List Coord)
    (w h : Int) (current : Coord) (st : AState) (d : Int × Int)
    (hd : d ∈ astarDeltas) (v_cur : Nat)
    (hv : alookup current st.cost = some v_cur)
    (hvm : v_cur = manhattan start current)
    (hE : EInv start w h st) :
    EInv start w h (expandNeighbor endC obstacles w h current st d) ∧
    alookup current (expandNeighbor endC obstacles w h current st d).cost
      = some v_cur := by
  rcases expandNeighbor_cases endC obstacles w h current st d with
    ⟨heq, _⟩ | ⟨hb, _, himp, heq⟩
  · rw [heq]
    exact ⟨hE, hv⟩
  · simp only [hv, Option.getD_some] at himp heq
    rw [heq]
    have hne_cur : (⟨current.x + d.1, current.y + d.2⟩ : Coord) ≠ current :=
      delta_ne current d hd
    refine ⟨⟨?_, ?_⟩, ?_⟩
    · intro pr hpr
      rcases List.mem_cons.mp hpr with rfl | hmem
      · dsimp only
        refine ⟨hb, ?_, ?_⟩
        · have h1 := manhattan_triangle start current
            ⟨current.x + d.1, current.y + d.2⟩
          have h2 := delta_manhattan current d hd
          omega
        · have h1 := manhattan_triangle start
            ⟨current.x + d.1, current.y + d.2⟩ current
          have h2 : manhattan (⟨current.x + d.1, current.y + d.2⟩ : Coord)
              current = 1 := by
            rw [manhattan_comm]
            exact delta_manhattan current d hd
          omega
      · exact hE.1 pr hmem
    · intro k
      by_cases hk : (⟨current.x + d.1, current.y + d.2⟩ : Coord) = k
      · have hdk : (decide ((⟨current.x + d.1, current.y + d.2⟩,
            v_cur + 1).1 = k)) = true := by simp [hk]
        rw [List.filter_cons, if_pos hdk, List.map_cons]
        refine List.chain'_cons'.mpr ⟨?_, hE.2 k⟩
        intro y hy
        rcases hh : (st.cost.filter (fun pr => decide (pr.1 = k))).head?
          with _ | pr0
        · rw [List.head?_map, hh] at hy
          cases hy
        · rw [List.head?_map, hh] at hy
          have hy' : pr0.2 = y := by simpa using hy
          have hlk : alookup k st.cost = some pr0.2 := by
            rw [alookup_filter_head k st.cost, hh]
            rfl
          rw [← hk] at hlk
          have := himp pr0.2 hlk
          omega
      · have hdk : (decide ((⟨current.x + d.1, current.y + d.2⟩,
            v_cur + 1).1 = k)) = false := by
          simp only [decide_eq_false_iff_not]
          exact hk
        rw [List.filter_cons, if_neg (by simp [hdk])]
        exact hE.2 k
    · rw [alookup_cons, if_neg (fun hcontra => hne_cur hcontra.symm)]
      exact hv

/-- The counting invariant is preserved by the whole neighbor fold. -/
theorem foldl_expand_EInv (start endC : Coord) (obstacles : List Coord)
    (w h : Int) (current : Coord) (v_cur : Nat)
    (hvm : v_cur = manhattan start current) :
    ∀ (ds : List (Int × Int)), (∀ d ∈ ds, d ∈ astarDeltas) →
    ∀ (st : AState), alookup current st.cost = some v_cur →
      EInv start w h st →
      EInv start w h (ds.foldl (expandNeighbor endC obstacles w h current) st)
  | [], _, _, _, hE => hE
  | d :: rest, hds, st, hv, hE => by
    obtain ⟨hE1, hv1⟩ :=
      expandNeighbor_EInv start endC obstacles w h current st d
        (hds d (List.mem_cons_self _ _)) v_cur hv hvm hE
    exact foldl_expand_EInv start endC obstacles w h current v_cur hvm rest
      (fun d' hd' => hds d' (List.mem_cons_of_mem _ hd')) _ hv1 hE1

/-- One neighbor relaxation adds a queue entry exactly when it adds a
cost binding. -/
theorem expandNeighbor_len (endC : Coord) (obstacles : List Coord)
    (w h : Int) (current : Coord) (st : AState) (d : Int × Int) :
    (expandNeighbor endC obstacles w h current st d).pq.length
        + st.cost.length
      = st.pq.length
        + (expandNeighbor endC obstacles w h current st d).cost.length := by
  rcases expandNeighbor_shape endC obstacles w h current st d with
    heq | ⟨nb, pr, cv, _, _, heq⟩
  · rw [heq]
  · rw [heq]
    simp only [List.length_cons]
    omega

/-- Across the whole neighbor fold, the queue and the cost list grow by
the same amount. -/
theorem foldl_expand_len (endC : Coord) (obstacles : List Coord)
    (w h : Int) (current : Coord) :
    ∀ (ds : List (Int × Int)) (st : AState),
      (ds.foldl (expandNeighbor endC obstacles w h current) st).pq.length
          + st.cost.length
        = st.pq.length
          + (ds.foldl (expandNeighbor endC obstacles w h current) st).cost.length
  | [], _ => rfl
  | d :: rest, st => by
    have h1 := expandNeighbor_len endC obstacles w h current st d
    have h2 := foldl_expand_len endC obstacles w h current rest
      (expandNeighbor endC obstacles w h current st d)
    simp only [List.foldl_cons]
    omega

/-- A strictly increasing list of naturals confined to a window of three
values has at most three elements. -/
theorem chain_lt_window :
    ∀ (l : List Nat) (lo : Nat),
      List.Chain' (fun a b => a < b) l →
      (∀ x ∈ l, lo ≤ x ∧ x ≤ lo + 2) → l.length ≤ 3
  | [], _, _, _ => by simp
  | [_], _, _, _ => by simp
  | [_, _], _, _, _ => by simp
  | [_, _, _], _, _, _ => by simp
  | a :: b :: c :: d :: rest, lo, hch, hw => by
    exfalso
    have h1 : a < b := (List.chain'_cons.mp hch).1
    have h2 : b < c := (List.chain'_cons.mp (List.chain'_cons.mp hch).2).1
    have h3 : c < d :=
      (List.chain'_cons.mp
        (List.chain'_cons.mp (List.chain'_cons.mp hch).2).2).1
    have ha := hw a (by simp)
    have hb := hw b (by simp)
    have hc := hw c (by simp)
    have hd := hw d (by simp)
    omega

theorem boardCells_mem (w h : Int) (c : Coord) :
    c ∈ boardCells w h ↔ inBounds w h c = true := by
  unfold boardCells
  rw [Finset.mem_image]
  constructor
  · rintro ⟨pr, hpr, hc⟩
    rw [Finset.mem_product, Finset.mem_range, Finset.mem_range] at hpr
    have hx : (pr.1 : Int) = c.x := congrArg Coord.x hc
    have hy : (pr.2 : Int) = c.y := congrArg Coord.y hc
    simp only [inBounds, Bool.and_eq_true, decide_eq_true_eq]
    obtain ⟨h1, h2⟩ := hpr
    omega
  · intro hc
    rcases c with ⟨cx, cy⟩
    simp only [inBounds, Bool.and_eq_true, decide_eq_true_eq] at hc
    refine ⟨(cx.toNat, cy.toNat), ?_, ?_⟩
    · rw [Finset.mem_product, Finset.mem_range, Finset.mem_range]
      constructor <;> omega
    · simp only [Coord.mk.injEq]
      constructor <;> omega

theorem boardCells_card (w h : Int) :
    (boardCells w h).card = w.toNat * h.toNat := by
  unfold boardCells
  rw [Finset.card_image_of_injective _ ?_, Finset.card_product,
    Finset.card_range, Finset.card_range]
  intro pr pr' hpr
  have hx : (pr.1 : Int) = pr'.1 := congrArg Coord.x hpr
  have hy : (pr.2 : Int) = pr'.2 := congrArg Coord.y hpr
  have hx' : pr.1 = pr'.1 := by exact_mod_cast hx
  have hy' : pr.2 = pr'.2 := by exact_mod_cast hy
  exact Prod.ext hx' hy'

/-- A list of keyed bindings whose keys all lie in a finite set splits
as the sum, over the keys, of the counts per key. -/
theorem length_eq_sum_countP (B : Finset Coord) :
    ∀ l : List (Coord × Nat), (∀ pr ∈ l, pr.1 ∈ B) →
      l.length
        = ∑ c ∈ B, l.countP (fun pr => decide (pr.1 = c))
  | [], _ => by simp
  | (k, v) :: t, hkeys => by
    have ih := length_eq_sum_countP B t
      (fun pr hpr => hkeys pr (List.mem_cons_of_mem _ hpr))
    have hkB : k ∈ B := hkeys (k, v) (List.mem_cons_self _ _)
    simp only [List.countP_cons, List.length_cons]
    rw [Finset.sum_add_distrib, ← ih]
    have hsum : (∑ c ∈ B,
        if (decide (k = c)) = true then 1 else 0) = 1 := by
      have : ∀ c ∈ B, (if (decide (k = c)) = true then 1 else 0)
          = if k = c then 1 else 0 := by
        intro c _
        by_cases hkc : k = c
        · simp [hkc]
        · simp [hkc]
      rw [Finset.sum_congr rfl this, Finset.sum_ite_eq]
      simp [hkB]
    omega

/-- The counting invariant caps the cost list at three bindings per
in-bounds cell. -/
theorem cost_length_le (start : Coord) (w h : Int) (st : AState)
    (hE : EInv start w h st) :
    st.cost.length ≤ 3 * (w.toNat * h.toNat) := by
  have hkeys : ∀ pr ∈ st.cost, pr.1 ∈ boardCells w h := by
    intro pr hpr
    exact (boardCells_mem w h pr.1).mpr (hE.1 pr hpr).1
  rw [length_eq_sum_countP (boardCells w h) st.cost hkeys]
  have hbound : ∀ c ∈ boardCells w h,
      st.cost.countP (fun pr => decide (pr.1 = c)) ≤ 3 := by
    intro c _
    rw [List.countP_eq_length_filter]
    have hlen : (st.cost.filter (fun pr => decide (pr.1 = c))).length
        = ((st.cost.filter (fun pr => decide (pr.1 = c))).map Prod.snd).length := by
      rw [List.length_map]
    rw [hlen]
    refine chain_lt_window _ (manhattan start c) (hE.2 c) ?_
    intro x hx
    rw [List.mem_map] at hx
    obtain ⟨pr, hpr, hx⟩ := hx
    rw [List.mem_filter] at hpr
    have hprc : pr.1 = c := by simpa using hpr.2
    have := (hE.1 pr hpr.1).2
    rw [hprc] at this
    omega
  calc (∑ c ∈ boardCells w h, st.cost.countP (fun pr => decide (pr.1 = c)))
      ≤ ∑ _c ∈ boardCells w h, 3 := Finset.sum_le_sum hbound
    _ = 3 * (w.toNat * h.toNat) := by
        rw [Finset.sum_const, boardCells_card, smul_eq_mul, mul_comm]

/-- On an obstacle-free board with an in-bounds start, the cell the
loop pops already carries its optimal cost, its Manhattan distance from
the start: the staircase to it is a valid path, so the admissibility
argument pins the recorded cost from above, and the window invariant
pins it from below. -/
theorem pop_optimal (start endC : Coord) (w h : Int) (st : AState)
    (hinv : BInv start endC [] w h st) (hE : EInv start w h st)
    (hsb : inBounds w h start = true)
    (e : Nat × Coord) (rest : List (Nat × Coord)) (hpq : st.pq = e :: rest) :
    alookup (minEntry e rest).2 st.cost
      = some (manhattan start (minEntry e rest).2) := by
  have hmem : minEntry e rest ∈ st.pq := hpq ▸ minEntry_mem rest e
  obtain ⟨v_cur, hv_cur, _⟩ := hinv.prioLB _ hmem
  have hwin := hE.1 _ (alookup_mem st.cost _ v_cur hv_cur)
  simp only at hwin
  have hcb : inBounds w h (minEntry e rest).2 = true := hwin.1
  obtain ⟨q, hqh, hql, hqc, hqlen, hqcells⟩ :=
    staircase w h (manhattan start (minEntry e rest).2) start
      (minEntry e rest).2 rfl hsb hcb
  obtain ⟨ve, hve, hvele⟩ :=
    suffix_cost_bound start endC [] w h st hinv (minEntry e rest) hmem
      (fun e' he' => minEntry_le rest e e' (hpq ▸ he'))
      q start 0 0 hqh hql hqc
      (fun c hc => ⟨hqcells c (List.mem_of_mem_tail hc),
        Or.inl (List.not_mem_nil c)⟩)
      hinv.startCost (le_refl 0)
  have hvee : ve = v_cur := by
    rw [hv_cur] at hve
    exact (Option.some.inj hve).symm
  rw [hv_cur]
  have hle : v_cur ≤ manhattan start (minEntry e rest).2 := by
    rw [hqlen] at hvele
    omega
  have hge := hwin.2.1
  exact congrArg some (by omega)

/-- On an obstacle-free board with in-bounds start and goal, the loop
returns a path before the fuel runs out: the queue cannot empty while
the goal is reachable, each iteration trades one queue entry for the
cost bindings it adds, and the cost list never exceeds three bindings
per board cell. -/
theorem astarLoop_empty_total (start endC : Coord) (w h : Int)
    (hsb : inBounds w h start = true) (heb : inBounds w h endC = true) :
    ∀ (fuel : Nat) (st : AState),
      BInv start endC [] w h st →
      EInv start w h st →
      GInv endC st →
      st.pq.length + 3 * (w.toNat * h.toNat) + 2 ≤ fuel + st.cost.length →
      ∃ p, astarLoop endC [] w h fuel st = some (some p)
  | 0, st, _, hE, _, hlen => by
    have := cost_length_le start w h st hE
    omega
  | fuel + 1, st, hinv, hE, hg, hlen => by
    rcases hpq : st.pq with _ | ⟨e, rest⟩
    · exfalso
      obtain ⟨q, hqh, hql, hqc, _, hqcells⟩ :=
        staircase w h (manhattan start endC) start endC rfl hsb heb
      exact pq_empty_no_path start endC [] w h st hinv hg hpq q start 0
        hqh hql hqc
        (fun c hc => ⟨hqcells c (List.mem_of_mem_tail hc),
          Or.inl (List.not_mem_nil c)⟩)
        hinv.startCost
    · by_cases hcur : (minEntry e rest).2 = endC
      · refine ⟨reconstruct st.came (st.cost.length + 1)
          (some (minEntry e rest).2) [], ?_⟩
        simp only [astarLoop, hpq]
        rw [if_pos hcur]
      · have hopt := pop_optimal start endC w h st hinv hE hsb e rest hpq
        obtain ⟨hinvW, v_cur, hv_cur⟩ :=
          pop_BInvW start endC [] w h st e rest hpq hinv
        have hvm : v_cur = manhattan start (minEntry e rest).2 := by
          rw [hopt] at hv_cur
          exact (Option.some.inj hv_cur).symm
        obtain ⟨hinvW', hv', _, _, hexp'⟩ :=
          foldl_expand_BInvW start endC [] w h (minEntry e rest).2
            v_cur astarDeltas (fun _ hd => hd) _ hinvW hv_cur
        have hE' := foldl_expand_EInv start endC [] w h (minEntry e rest).2
          v_cur hvm astarDeltas (fun _ hd => hd)
          { st with pq := (e :: rest).erase (minEntry e rest) } hv_cur hE
        have hg' := foldl_expand_GInv endC [] w h (minEntry e rest).2
          astarDeltas _ (pop_GInv endC st e rest hpq hcur hg)
        have hBI := BInvW_to_BInv start endC [] w h (minEntry e rest).2 v_cur
          _ hinvW' hv' hexp'
        have hfl := foldl_expand_len endC [] w h (minEntry e rest).2
          astarDeltas { st with pq := (e :: rest).erase (minEntry e rest) }
        have herase : ((e :: rest).erase (minEntry e rest)).length
            = (e :: rest).length - 1 :=
          List.length_erase_of_mem (minEntry_mem rest e)
        have hstpq : st.pq.length = rest.length + 1 := by rw [hpq]; rfl
        obtain ⟨p, hp⟩ := astarLoop_empty_total start endC w h hsb heb fuel
          (astarDeltas.foldl
            (expandNeighbor endC [] w h (minEntry e rest).2)
            { st with pq := (e :: rest).erase (minEntry e rest) })
          hBI hE' hg'
          (by
            simp only at hfl
            simp only [List.length_cons] at herase
            omega)
        refine ⟨p, ?_⟩
        simp only [astarLoop, hpq]
        rw [if_neg hcur]
        exact hp

/-- Part B of the shortest-path claim: on an obstacle-free board, for
any in-bounds start and goal, `a_star` returns a path, and that path
has length exactly the Manhattan distance plus one. -/
theorem a_star_partB (start endC : Coord) (w h : Int)
    (hsb : inBounds w h start = true) (heb : inBounds w h endC = true) :
    ∃ p, a_star start endC [] w h = some (some p) ∧
      p.length = manhattan start endC + 1 := by
  by_cases hse : start = endC
  · subst hse
    refine ⟨[start], astarLoop_start_goal start [] w h _, ?_⟩
    simp [manhattan_self]
  · have hpeel : a_star start endC [] w h
        = astarLoop endC [] w h (3 * (w.toNat * h.toNat + 2) + 3)
          (astarDeltas.foldl (expandNeighbor endC [] w h start)
            { pq := [], came := [(start, none)], cost := [(start, 0)] }) := by
      show astarLoop endC [] w h (3 * (w.toNat * h.toNat + 2) + 3 + 1)
          { pq := [(0, start)], came := [(start, none)], cost := [(start, 0)] }
        = _
      simp only [astarLoop, minEntry, if_neg hse, List.erase_cons_head]
    obtain ⟨hinvW1, hv1, _, _, hexp1⟩ :=
      foldl_expand_BInvW start endC [] w h start 0 astarDeltas
        (fun _ hd => hd) _ (BInvW_init start endC [] w h)
        (by simp [alookup])
    have hBI1 := BInvW_to_BInv start endC [] w h start 0 _ hinvW1 hv1 hexp1
    have hE0 : EInv start w h
        { pq := [], came := [(start, none)], cost := [(start, 0)] } := by
      constructor
      · intro pr hpr
        have hpr' : pr = (start, 0) := by simpa using hpr
        rw [hpr']
        exact ⟨hsb, le_of_eq (manhattan_self start), by omega⟩
      · intro k
        by_cases hk : start = k
        · simp [List.filter_cons, hk]
        · simp [List.filter_cons, hk]
    have hg0 : GInv endC
        { pq := [], came := [(start, none)], cost := [(start, 0)] } := by
      intro v hv
      rw [alookup_cons] at hv
      split_ifs at hv with hes
      · exact absurd hes.symm hse
      · simp [alookup] at hv
    have hE1 := foldl_expand_EInv start endC [] w h start 0
      (manhattan_self start).symm astarDeltas (fun _ hd => hd)
      { pq := [], came := [(start, none)], cost := [(start, 0)] }
      (by simp [alookup]) hE0
    have hg1 := foldl_expand_GInv endC [] w h start astarDeltas
      { pq := [], came := [(start, none)], cost := [(start, 0)] } hg0
    have hfl := foldl_expand_len endC [] w h start astarDeltas
      { pq := [], came := [(start, none)], cost := [(start, 0)] }
    obtain ⟨p, hp⟩ :=
      astarLoop_empty_total start endC w h hsb heb
        (3 * (w.toNat * h.toNat + 2) + 3)
        (astarDeltas.foldl (expandNeighbor endC [] w h start)
          { pq := [], came := [(start, none)], cost := [(start, 0)] })
        hBI1 hE1 hg1
        (by
          simp only [List.length_cons, List.length_nil] at hfl
          omega)
    have hrun : a_star start endC [] w h = some (some p) := by
      rw [hpeel]
      exact hp
    obtain ⟨hvp, hmin⟩ := a_star_partA start endC [] w h p hrun
    obtain ⟨q, hqh, hql, hqc, hqlen, hqcells⟩ :=
      staircase w h (manhattan start endC) start endC rfl hsb heb
    have hle : p.length ≤ manhattan start endC + 1 := by
      have := hmin q ⟨hqh, hql, hqc,
        fun c hc => ⟨hqcells c (List.mem_of_mem_tail hc),
          Or.inl (List.not_mem_nil c)⟩⟩
      omega
    have hge : manhattan start endC ≤ p.length - 1 :=
      chain_manhattan_le p start endC hvp.2.2.1 hvp.1 hvp.2.1
    have hppos : 1 ≤ p.length := by
      rcases p with _ | ⟨a, t⟩
      · exact absurd hvp.1 (by simp)
      · simp
    exact ⟨p, hrun, by omega⟩

/-- C5: whenever `a_star` returns a path, that path is a valid
traversal (unit grid steps, every cell after the first in bounds and
obstacle-free unless it is the goal) and no valid traversal is shorter;
in particular, for every in-bounds start/goal pair with an empty
obstacle set, `a_star` returns a path whose length equals the Manhattan
distance from start to goal plus one. -/
theorem a_star_shortest_path (start endC : Coord) (obstacles : List Coord)
    (w h : Int) :
    (∀ p, a_star start endC obstacles w h = some (some p) →
      ValidPath start endC endC obstacles w h p ∧
      ∀ q, ValidPath start endC endC obstacles w h q → p.length ≤ q.length) ∧
    (obstacles = [] → inBounds w h start = true → inBounds w h endC = true →
      ∃ p, a_star start endC obstacles w h = some (some p) ∧
        p.length = manhattan start endC + 1) := by
  refine ⟨fun p hp => a_star_partA start endC obstacles w h p hp, ?_⟩
  rintro rfl hsb heb
  exact a_star_partB start endC w h hsb heb

end CodeBattle
